import Mathlib

/-!
# Verification of the TicoVision utility scripts

Shallow embedding of the two repository scripts:

* `scripts/update-body-spacing.py` — the template spacing normalizer: an
  ordered sequence of `re.sub` substitutions applied to the text of each
  template file, the file being rewritten only when the content changed.
* `my_tool.py` — the bidi display adapter `fix_text`, a call into the
  external `bidi.algorithm.get_display` library (modelled from the spec).

Strings are embedded as `List Char`.  Each `re.sub` call is embedded as a
matcher `List Char → Option (List Char × List Char)` that, at a given
position, either fails or returns the replacement text together with the
rest of the input after the matched text; `subst` scans left to right and
replaces every non-overlapping match, exactly as `re.sub` does (none of
the patterns can match the empty string).
-/

namespace TV

/-- The set of characters Python's `re` module treats as `\s` when the
pattern is a `str` (ASCII whitespace plus the Unicode whitespace code
points). -/
def isSpaceB (c : Char) : Bool :=
  c = ' ' || c = '\t' || c = '\n' || c = '\r' || c = '\x0b' || c = '\x0c' ||
  c.toNat = 0x1c || c.toNat = 0x1d || c.toNat = 0x1e || c.toNat = 0x1f ||
  c.toNat = 0x85 || c.toNat = 0xa0 || c.toNat = 0x1680 ||
  (0x2000 ≤ c.toNat && c.toNat ≤ 0x200a) ||
  c.toNat = 0x2028 || c.toNat = 0x2029 || c.toNat = 0x202f ||
  c.toNat = 0x205f || c.toNat = 0x3000

/-- Every character of `w` is whitespace (the text a `\s*` / `\s+` run
can match). -/
def allSpace (w : List Char) : Bool := w.all isSpaceB

/-- Match the literal `p` at the front of `s`; on success return the rest
of `s` after the literal. -/
def matchLit : List Char → List Char → Option (List Char)
  | [], s => some s
  | _ :: _, [] => none
  | p :: ps, c :: cs => if c = p then matchLit ps cs else none

/-! ## The literal fragments of the eight substitution rules -/

/-- `<td style="padding-top: 13px;">`, the literal part of rules 1 and 4. -/
def tdPad13 : List Char := "<td style=\"padding-top: 13px;\">".data

/-- `<td style="padding-top: 20px;">`, the replacement of rules 1, 4 and 8. -/
def tdPad20 : List Char := "<td style=\"padding-top: 20px;\">".data

/-- `<td style="padding-top: 24px;">`, the pattern of rule 8. -/
def tdPad24 : List Char := "<td style=\"padding-top: 24px;\">".data

/-- `<!-- Top border above subject -->`, the comment captured by rule 1. -/
def cmTop : List Char := "<!-- Top border above subject -->".data

/-- The pattern of rule 2. -/
def divBorder13 : List Char :=
  "<div style=\"border-top: 1px solid #000000; margin-bottom: 13px;\"></div>".data

/-- The replacement of rule 2. -/
def divBorder20 : List Char :=
  "<div style=\"border-top: 1px solid #000000; margin-bottom: 20px;\"></div>".data

/-- `letter-spacing: -0.3px;`, group 1 of rule 3. -/
def lsp : List Char := "letter-spacing: -0.3px;".data

/-- `border-bottom: 1px solid #000000; padding-bottom: 13px;`, group 2 of rule 3. -/
def bb13 : List Char := "border-bottom: 1px solid #000000; padding-bottom: 13px;".data

/-- The literal tail of rule 3's replacement. -/
def bb20 : List Char := "border-bottom: 1px solid #000000; padding-bottom: 20px;".data

/-- The two spaces rule 3's replacement puts between its two groups. -/
def twoSp : List Char := "  ".data

/-- `<div style="font-family`, the literal captured after `\s*` by rule 4. -/
def divFont : List Char := "<div style=\"font-family".data

/-- The pattern of rule 5 (group 1 plus the literal tail). -/
def taMb13 : List Char := "text-align: right; margin-bottom: 13px;\">".data

/-- The replacement of rule 5. -/
def taMb20 : List Char := "text-align: right; margin-bottom: 20px;\">".data

/-- The pattern of rule 6. -/
def taPb10 : List Char := "text-align: right; padding-bottom: 10px;\">".data

/-- The replacement of rule 6. -/
def taPb20 : List Char := "text-align: right; padding-bottom: 20px;\">".data

/-! ## The eight `re.sub` calls as positional matchers

Each `tryN` embeds the regex of rule N of `update-body-spacing.py`:
at the current position it either fails or returns
`(replacement text, input after the matched text)`.
In rules 1, 3 and 4 the greedy `\s*` / `\s+` is followed by a literal
starting with a non-whitespace character, so the maximal whitespace run
(`takeWhile`/`dropWhile`) is exactly what the regex engine matches.
Rule 7 of the script is a comment with no `re.sub` call. -/

/-- Rule 1: `<td style="padding-top: 13px;">(\s*<!-- Top border above subject -->)`
  → `<td style="padding-top: 20px;">\1`. -/
def try1 (s : List Char) : Option (List Char × List Char) :=
  match matchLit tdPad13 s with
  | none => none
  | some s1 =>
    match matchLit cmTop (s1.dropWhile isSpaceB) with
    | none => none
    | some s2 => some (tdPad20 ++ s1.takeWhile isSpaceB ++ cmTop, s2)

/-- Rule 2: the literal `<div style="border-top: … margin-bottom: 13px;"></div>`
  → the same with `20px`. -/
def try2 (s : List Char) : Option (List Char × List Char) :=
  match matchLit divBorder13 s with
  | none => none
  | some s1 => some (divBorder20, s1)

/-- Rule 3: `(letter-spacing: -0\.3px;)\s+(border-bottom: … 13px;)`
  → `\1␣␣border-bottom: … 20px;` (two literal spaces replace the run). -/
def try3 (s : List Char) : Option (List Char × List Char) :=
  match matchLit lsp s with
  | none => none
  | some s1 =>
    if (s1.takeWhile isSpaceB).isEmpty then none
    else match matchLit bb13 (s1.dropWhile isSpaceB) with
      | none => none
      | some s2 => some (lsp ++ twoSp ++ bb20, s2)

/-- Rule 4: `<td style="padding-top: 13px;">(\s*<div style="font-family)`
  → `<td style="padding-top: 20px;">\1`. -/
def try4 (s : List Char) : Option (List Char × List Char) :=
  match matchLit tdPad13 s with
  | none => none
  | some s1 =>
    match matchLit divFont (s1.dropWhile isSpaceB) with
    | none => none
    | some s2 => some (tdPad20 ++ s1.takeWhile isSpaceB ++ divFont, s2)

/-- Rule 5: `(text-align: right;) margin-bottom: 13px;">` → `\1 margin-bottom: 20px;">`. -/
def try5 (s : List Char) : Option (List Char × List Char) :=
  match matchLit taMb13 s with
  | none => none
  | some s1 => some (taMb20, s1)

/-- Rule 6: `(text-align: right;) padding-bottom: 10px;">` → `\1 padding-bottom: 20px;">`. -/
def try6 (s : List Char) : Option (List Char × List Char) :=
  match matchLit taPb10 s with
  | none => none
  | some s1 => some (taPb20, s1)

/-- Rule 8: the literal `<td style="padding-top: 24px;">` → the same with `20px`. -/
def try8 (s : List Char) : Option (List Char × List Char) :=
  match matchLit tdPad24 s with
  | none => none
  | some s1 => some (tdPad20, s1)

/-! ## The substitution scan (`re.sub`) -/

/-- Fuel-indexed left-to-right scan: at each position try the matcher; on
a match emit the replacement and continue after the matched text,
otherwise keep the character and move on.  The fuel only serves
termination; `subst` supplies enough of it. -/
def substF (f : List Char → Option (List Char × List Char)) :
    Nat → List Char → List Char
  | 0, s => s
  | _ + 1, [] => []
  | fuel + 1, c :: cs =>
    match f (c :: cs) with
    | some (rep, t) => rep ++ substF f fuel t
    | none => c :: substF f fuel cs

/-- `re.sub` for a matcher `f` that consumes at least one character on
every match (true of all eight rules): replace every non-overlapping
match, scanning left to right. -/
def subst (f : List Char → Option (List Char × List Char)) (s : List Char) :
    List Char :=
  substF f s.length s

/-- The ordered rule sequence of `update-body-spacing.py` applied to the
content of one template file (rules 1,2,3,4,5,6,8 in program order). -/
def applyRules (c : List Char) : List Char :=
  subst try8 (subst try6 (subst try5 (subst try4 (subst try3 (subst try2 (subst try1 c))))))

/-- The spec's `normalize(fileContents) -> (string, changed)` contract as
implemented by the script: the transformed content, and whether it
differs from the original (`content != original_content`). -/
def normalize (c : List Char) : List Char × Bool :=
  (applyRules c, decide (applyRules c ≠ c))

/-- The write decision of lines 73–78 of the script: `some newContent`
when the file is overwritten, `none` when it is left untouched. -/
def processFile (original : List Char) : Option (List Char) :=
  let content := applyRules original
  if content ≠ original then some content else none

/-- The literal `pat` occurs as a contiguous substring of the argument. -/
def occursLit (pat : List Char) : List Char → Bool
  | [] => decide (pat = [])
  | c :: cs => (matchLit pat (c :: cs)).isSome || occursLit pat cs

/-- Some position of the argument matches the matcher `f`. -/
def hasM (f : List Char → Option (List Char × List Char)) : List Char → Bool
  | [] => (f []).isSome
  | c :: cs => (f (c :: cs)).isSome || hasM f cs

/-! ## A uniform presentation of the seven active rules

Every rule is of the shape: a leading literal `a`, optionally followed by
a greedy whitespace run (`hasWs`, nonempty when `needWs`) and a literal
`b`.  `tryRul` matches that shape and emits the constant replacement
`rep`; when `consumeTail` is false the scan resumes right after `a`
(rules 1 and 4 re-emit their captured `\s*`-group unchanged, so resuming
before the group is equivalent to `re.sub`'s resuming after it — proved
below as `subst_try1_eq`/`subst_try4_eq`). -/

structure Rule where
  a : List Char
  hasWs : Bool
  needWs : Bool
  b : List Char
  consumeTail : Bool
  rep : List Char

/-- The uniform matcher for a rule. -/
def tryRul (r : Rule) (s : List Char) : Option (List Char × List Char) :=
  match matchLit r.a s with
  | none => none
  | some s1 =>
    if r.hasWs then
      if r.needWs && (s1.takeWhile isSpaceB).isEmpty then none
      else
        match matchLit r.b (s1.dropWhile isSpaceB) with
        | none => none
        | some s3 => some (r.rep, if r.consumeTail then s3 else s1)
    else some (r.rep, s1)

/-- Rule 1 in uniform form (scan resumes after the consumed `tdPad13`). -/
def rul1 : Rule := ⟨tdPad13, true, false, cmTop, false, tdPad20⟩

/-- Rule 2 in uniform form. -/
def rul2 : Rule := ⟨divBorder13, false, false, [], false, divBorder20⟩

/-- Rule 3 in uniform form. -/
def rul3 : Rule := ⟨lsp, true, true, bb13, true, lsp ++ twoSp ++ bb20⟩

/-- Rule 4 in uniform form (scan resumes after the consumed `tdPad13`). -/
def rul4 : Rule := ⟨tdPad13, true, false, divFont, false, tdPad20⟩

/-- Rule 5 in uniform form. -/
def rul5 : Rule := ⟨taMb13, false, false, [], false, taMb20⟩

/-- Rule 6 in uniform form. -/
def rul6 : Rule := ⟨taPb10, false, false, [], false, taPb20⟩

/-- Rule 8 in uniform form. -/
def rul8 : Rule := ⟨tdPad24, false, false, [], false, tdPad20⟩

/-! ## Decidable no-interference checkers

`litScan p x` runs the literal matcher of `p` against `x` alone and
reports whether it definitely fails inside `x` (`fail`), succeeds inside
`x` (`done rest`), or exhausts `x` with part of `p` still unmatched
(`more remainder`). -/

inductive LitRes where
  | fail : LitRes
  | done : List Char → LitRes
  | more : List Char → LitRes

/-- Run the literal `p` against the fragment `x` (no continuation). -/
def litScan : List Char → List Char → LitRes
  | [], x => .done x
  | p :: ps, [] => .more (p :: ps)
  | p :: ps, y :: ys => if y = p then litScan ps ys else .fail

/-- The literal `p` definitely fails inside `x`, whatever follows `x`. -/
def litFailIn (p x : List Char) : Bool :=
  match litScan p x with
  | .fail => true
  | _ => false

/-- Matching rule `r` at the start of `x` definitely fails inside `x`,
whatever text follows `x`. -/
def deadAt (r : Rule) (x : List Char) : Bool :=
  match litScan r.a x with
  | .fail => true
  | .more _ => false
  | .done s1 =>
    if r.hasWs then
      if (s1.dropWhile isSpaceB).isEmpty then false
      else if r.needWs && (s1.takeWhile isSpaceB).isEmpty then true
      else litFailIn r.b (s1.dropWhile isSpaceB)
    else false

/-- Rule `r` definitely fails at every position inside `x`. -/
def deadAll (r : Rule) (x : List Char) : Bool :=
  (List.range x.length).all fun i => deadAt r (x.drop i)

/-- Every nonempty proper suffix of `p` definitely fails against `x`
inside `x`. -/
def sufDead (p x : List Char) : Bool :=
  (List.range' 1 (p.length - 1)).all fun d => litFailIn (p.drop d) x

/-- A partially consumed match of `rk` (its leading literal, its
whitespace run or its trailing literal) can never continue through the
block `x`: the residue of either literal definitely fails inside `x`. -/
def straddleDead (rk : Rule) (x : List Char) : Bool :=
  sufDead rk.a x && (!rk.hasWs || (litFailIn rk.b x && sufDead rk.b x))

/-- `x` starts with a non-whitespace character. -/
def headNonSpace (x : List Char) : Bool :=
  match x with
  | [] => false
  | c :: _ => !isSpaceB c

/-- The two lists disagree at some index below both lengths. -/
def clash2 : List Char → List Char → Bool
  | [], _ => false
  | _ :: _, [] => false
  | a :: as, b :: bs => if a = b then clash2 as bs else true

/-- Every nonempty proper suffix of `m` disagrees with `fpre` at some
index below both lengths. -/
def sufClash (m fpre : List Char) : Bool :=
  (List.range' 1 (m.length - 1)).all fun d => clash2 (m.drop d) fpre

/-- Every nonempty suffix of `b` (the whole of `b` included) disagrees
with `fpre` at some index below both lengths. -/
def sufClash0 (b fpre : List Char) : Bool :=
  (List.range b.length).all fun e => clash2 (b.drop e) fpre

/-! ## Specification-level predicates used by the proofs -/

/-- `f` matches at no position of `s`. -/
def NoMatch (f : List Char → Option (List Char × List Char)) (s : List Char) : Prop :=
  ∀ i, f (s.drop i) = none

/-- Every match of `f` consumes at least one character. -/
def Shrink (f : List Char → Option (List Char × List Char)) : Prop :=
  ∀ s r t, f s = some (r, t) → t.length < s.length

/-- The possible texts consumed by one match of rule `r`. -/
def Consumed (r : Rule) (m : List Char) : Prop :=
  m = r.a ∨ ∃ w, allSpace w = true ∧ m = r.a ++ w ++ r.b

/-- `x` is a prefix of `F`, or `F` is a prefix of `x` (the two can sit at
the same position of some common string). -/
def Meshes (x F : List Char) : Prop :=
  (∃ z, F = x ++ z) ∨ (∃ z, x = F ++ z)

/-- The combined decidable interference check for a pair of rules: after
a pass of `rj`, no match of `rk` survives inside or across the emitted
replacement blocks. -/
def compat (rk rj : Rule) : Bool :=
  decide (rk.a ≠ []) && decide (rj.a ≠ []) && deadAll rk rj.rep &&
    straddleDead rk rj.rep && headNonSpace rj.rep

/-- The rule pipeline in uniform form (same rules, same order as
`applyRules`; the two agree, see `applyRules_eq`). -/
def pipeR (c : List Char) : List Char :=
  subst (tryRul rul8) (subst (tryRul rul6) (subst (tryRul rul5)
    (subst (tryRul rul4) (subst (tryRul rul3) (subst (tryRul rul2)
      (subst (tryRul rul1) c))))))

/-! ## The bidi display adapter (`my_tool.py`)

`fix_text(text)` returns `bidi.algorithm.get_display(text)`.  The
`get_display` code belongs to the external `python-bidi` library, not to
this repository, so it is modelled from the spec. -/

/-- The simplified bidirectional character classes the model uses. -/
inductive BClass where
  | L : BClass
  | R : BClass
  | AL : BClass
  | EN : BClass
  | WS : BClass
  | ON : BClass
deriving DecidableEq

/-- Modelled from the spec: the bidi character class table of the
standard bidirectional algorithm, restricted to the script ranges the
spec names (Hebrew-style strong right-to-left, Arabic-style strong
right-to-left, Latin letters, European digits, whitespace, and common
punctuation as neutral). -/
def bidiClass (c : Char) : BClass :=
  let n := c.toNat
  if (0x41 ≤ n && n ≤ 0x5a) || (0x61 ≤ n && n ≤ 0x7a) then .L
  else if 0x30 ≤ n && n ≤ 0x39 then .EN
  else if (0x590 ≤ n && n ≤ 0x5ff) || (0xfb1d ≤ n && n ≤ 0xfb4f) then .R
  else if (0x600 ≤ n && n ≤ 0x6ff) || (0x750 ≤ n && n ≤ 0x77f) ||
      (0xfb50 ≤ n && n ≤ 0xfdff) || (0xfe70 ≤ n && n ≤ 0xfeff) then .AL
  else if isSpaceB c then .WS
  else if n < 0x41 || (0x5b ≤ n && n ≤ 0x60) || (0x7b ≤ n && n ≤ 0x7e) then .ON
  else .L

/-- `c` is a strong right-to-left character of the model. -/
def isStrongRTL (c : Char) : Bool :=
  match bidiClass c with
  | .R => true
  | .AL => true
  | _ => false

/-- Paragraph direction: decided by the first strong character (rule P2
of the standard algorithm); left-to-right when there is none. -/
def paraRTL : List BClass → Bool
  | [] => false
  | .L :: _ => false
  | .R :: _ => true
  | .AL :: _ => true
  | _ :: cs => paraRTL cs

/-- Weak-type resolution (rule W7 and the W2 context tracking): a
European number whose last preceding strong type is `L` becomes `L`. -/
def resolveW (last : BClass) : List BClass → List BClass
  | [] => []
  | .L :: cs => .L :: resolveW .L cs
  | .R :: cs => .R :: resolveW .R cs
  | .AL :: cs => .AL :: resolveW .AL cs
  | .EN :: cs => (if last = .L then .L else .EN) :: resolveW last cs
  | c :: cs => c :: resolveW last cs

/-- The class is neutral (whitespace or other neutral). -/
def isNeutral : BClass → Bool
  | .WS => true
  | .ON => true
  | _ => false

/-- The direction a non-neutral class contributes to neutral resolution
(numbers count as `R`, rule N1); neutrals fall back to the paragraph
direction. -/
def dirOf (pdir : BClass) : BClass → BClass
  | .L => .L
  | .R => .R
  | .AL => .R
  | .EN => .R
  | _ => pdir

/-- Neutral resolution (rules N1/N2), fuel-indexed: a maximal run of
neutrals takes the common direction of its two non-neutral neighbours
(`sos`/`eos` at the ends), otherwise the paragraph direction. -/
def resolveNF (pdir : BClass) : Nat → BClass → List BClass → List BClass
  | 0, _, cs => cs
  | _ + 1, _, [] => []
  | fuel + 1, left, c :: cs =>
    if isNeutral c then
      let run := (c :: cs).takeWhile isNeutral
      let rest := (c :: cs).dropWhile isNeutral
      let rdir := match rest with
        | [] => pdir
        | d :: _ => dirOf pdir d
      let dir := if left = rdir then left else pdir
      run.map (fun _ => dir) ++ resolveNF pdir fuel left rest
    else c :: resolveNF pdir fuel (dirOf pdir c) cs

/-- Neutral resolution with enough fuel. -/
def resolveN (pdir left : BClass) (cs : List BClass) : List BClass :=
  resolveNF pdir cs.length left cs

/-- Implicit levels (rules I1/I2) over the paragraph level `p`. -/
def classLevel (p : Nat) : BClass → Nat
  | .L => if p % 2 = 0 then p else p + 1
  | .R => if p % 2 = 0 then p + 1 else p
  | .AL => if p % 2 = 0 then p + 1 else p
  | .EN => if p % 2 = 0 then p + 2 else p + 1
  | _ => p

/-- Reset the levels of a trailing whitespace run (rule L1), on the
reversed line. -/
def resetTrailing (p : Nat) : List (BClass × Nat) → List (BClass × Nat)
  | [] => []
  | (c, l) :: xs =>
    if c = .WS then (c, p) :: resetTrailing p xs else (c, l) :: xs

/-- Rule L1: whitespace at the end of the line gets the paragraph level. -/
def applyL1 (p : Nat) (cls : List BClass) (lvls : List Nat) : List Nat :=
  ((resetTrailing p ((cls.zip lvls).reverse)).reverse).map Prod.snd

/-- Reverse every maximal run of entries whose level is at least `t`
(one pass of rule L2), fuel-indexed. -/
def revRunsF (t : Nat) : Nat → List (Char × Nat) → List (Char × Nat)
  | 0, xs => xs
  | _ + 1, [] => []
  | fuel + 1, x :: xs =>
    if t ≤ x.2 then
      ((x :: xs).takeWhile fun y => t ≤ y.2).reverse ++
        revRunsF t fuel ((x :: xs).dropWhile fun y => t ≤ y.2)
    else x :: revRunsF t fuel xs

/-- One pass of rule L2 at threshold `t`. -/
def revRuns (t : Nat) (xs : List (Char × Nat)) : List (Char × Nat) :=
  revRunsF t xs.length xs

/-- Rule L2: reverse runs from the highest level down to level 1. -/
def l2loop : Nat → List (Char × Nat) → List (Char × Nat)
  | 0, xs => xs
  | t + 1, xs => l2loop t (revRuns (t + 1) xs)

/-- The highest resolved level of the line. -/
def maxLevel (ls : List Nat) : Nat := ls.foldr max 0

/-- Rule L4: mirrored bracket glyphs for characters laid out
right-to-left. -/
def mirrorChar (c : Char) : Char :=
  if c = '(' then ')'
  else if c = ')' then '('
  else if c = '[' then ']'
  else if c = ']' then '['
  else if c = '\x7b' then '\x7d'
  else if c = '\x7d' then '\x7b'
  else if c = '<' then '>'
  else if c = '>' then '<'
  else c

/-- Modelled from the spec: the resolved embedding level of every
character of one line (paragraph level from the first strong character,
weak and neutral resolution, implicit levels, L1 whitespace reset). -/
def lineLevels (s : List Char) : List Nat :=
  let cls := s.map bidiClass
  let rtl := paraRTL cls
  let p : Nat := if rtl then 1 else 0
  let sos : BClass := if rtl then .R else .L
  applyL1 p cls ((resolveN sos sos (resolveW sos cls)).map (classLevel p))

/-- Modelled from the spec: reorder one line of logical-order text into
visual order per the standard bidirectional algorithm (resolved levels,
L2 run reversal, L4 mirroring). -/
def reorderLine (s : List Char) : List Char :=
  let lvls := lineLevels s
  (l2loop (maxLevel lvls) (s.zip lvls)).map
    fun x => if x.2 % 2 = 1 then mirrorChar x.1 else x.1

/-- Split at every newline (the spec: multi-line input is reordered line
by line, line breaks preserved). -/
def splitNL : List Char → List (List Char)
  | [] => [[]]
  | c :: cs =>
    if c = '\n' then [] :: splitNL cs
    else
      match splitNL cs with
      | [] => [[c]]
      | l :: ls => (c :: l) :: ls

/-- Rejoin the lines with newlines. -/
def joinNL : List (List Char) → List Char
  | [] => []
  | [l] => l
  | l :: ls => l ++ '\n' :: joinNL ls

/-- Modelled from the spec: the external `bidi.algorithm.get_display`
(imported by `my_tool.py`; its code is not part of this repository).
Reorders each line independently per the standard bidirectional
algorithm and preserves line breaks. -/
def get_display (text : String) : String :=
  String.mk (joinNL ((splitNL text.data).map reorderLine))

/-- `fix_text` of `my_tool.py`: returns `get_display(text)`. -/
def fix_text (text : String) : String := get_display text

/-! # Theorems

## Basic facts about `matchLit` and `litScan` -/

theorem matchLit_append_self (p t : List Char) : matchLit p (p ++ t) = some t := by
  induction p with
  | nil => rfl
  | cons c cs ih => simp [matchLit, ih]

theorem matchLit_eq_some {p s t : List Char} (h : matchLit p s = some t) :
    s = p ++ t := by
  induction p generalizing s with
  | nil =>
    simp only [matchLit, Option.some.injEq] at h
    simp [h]
  | cons c cs ih =>
    cases s with
    | nil => exact absurd h (by simp [matchLit])
    | cons y ys =>
      simp only [matchLit] at h
      by_cases hyc : y = c
      · rw [if_pos hyc] at h
        rw [hyc, ih h]
        rfl
      · rw [if_neg hyc] at h
        cases h

theorem matchLit_append_left (x q t : List Char) :
    matchLit (x ++ q) (x ++ t) = matchLit q t := by
  induction x with
  | nil => rfl
  | cons c cs ih => simp [matchLit, ih]

theorem litScan_fail {p x : List Char} (h : litScan p x = .fail) (t : List Char) :
    matchLit p (x ++ t) = none := by
  induction p generalizing x with
  | nil => exact absurd h (by simp [litScan])
  | cons c cs ih =>
    cases x with
    | nil => exact absurd h (by simp [litScan])
    | cons y ys =>
      simp only [litScan] at h
      simp only [List.cons_append, matchLit]
      by_cases hyc : y = c
      · rw [if_pos hyc] at h ⊢
        exact ih h
      · rw [if_neg hyc]

theorem litScan_done {p x r : List Char} (h : litScan p x = .done r) :
    x = p ++ r := by
  induction p generalizing x with
  | nil =>
    simp only [litScan, LitRes.done.injEq] at h
    simp [h]
  | cons c cs ih =>
    cases x with
    | nil => exact absurd h (by simp [litScan])
    | cons y ys =>
      simp only [litScan] at h
      by_cases hyc : y = c
      · rw [if_pos hyc] at h
        rw [hyc, ih h]
        rfl
      · rw [if_neg hyc] at h
        cases h

theorem litScan_more {p x q : List Char} (h : litScan p x = .more q) :
    p = x ++ q ∧ q ≠ [] := by
  induction p generalizing x with
  | nil =>
    cases x <;> simp [litScan] at h
  | cons c cs ih =>
    cases x with
    | nil =>
      simp only [litScan, LitRes.more.injEq] at h
      subst h
      exact ⟨rfl, by simp⟩
    | cons y ys =>
      simp only [litScan] at h
      by_cases hyc : y = c
      · rw [if_pos hyc] at h
        obtain ⟨h1, h2⟩ := ih h
        exact ⟨by rw [hyc, h1]; rfl, h2⟩
      · rw [if_neg hyc] at h
        cases h

theorem litFailIn_spec {p x : List Char} (h : litFailIn p x = true) (t : List Char) :
    matchLit p (x ++ t) = none := by
  unfold litFailIn at h
  cases hs : litScan p x with
  | fail => exact litScan_fail hs t
  | done r => rw [hs] at h; cases h
  | more q => rw [hs] at h; cases h

/-! ## Whitespace runs: `takeWhile` / `dropWhile` -/

theorem dropWhile_append_ne {s1 : List Char} (t : List Char)
    (h : s1.dropWhile isSpaceB ≠ []) :
    (s1 ++ t).dropWhile isSpaceB = s1.dropWhile isSpaceB ++ t := by
  induction s1 with
  | nil => exact absurd rfl h
  | cons c cs ih =>
    cases hc : isSpaceB c with
    | true =>
      have h' : cs.dropWhile isSpaceB ≠ [] := by
        simpa [List.dropWhile_cons, hc] using h
      simp [List.dropWhile_cons, hc, ih h']
    | false => simp [List.dropWhile_cons, hc]

theorem takeWhile_append_ne {s1 : List Char} (t : List Char)
    (h : s1.dropWhile isSpaceB ≠ []) :
    (s1 ++ t).takeWhile isSpaceB = s1.takeWhile isSpaceB := by
  induction s1 with
  | nil => exact absurd rfl h
  | cons c cs ih =>
    cases hc : isSpaceB c with
    | true =>
      have h' : cs.dropWhile isSpaceB ≠ [] := by
        simpa [List.dropWhile_cons, hc] using h
      simp [List.takeWhile_cons, List.dropWhile_cons, hc, ih h']
    | false => simp [List.takeWhile_cons, hc]

theorem dropWhile_space_append {w : List Char} (hw : allSpace w = true)
    (y : List Char) :
    (w ++ y).dropWhile isSpaceB = y.dropWhile isSpaceB := by
  induction w with
  | nil => rfl
  | cons c cs ih =>
    simp only [allSpace, List.all_cons, Bool.and_eq_true] at hw
    simpa [List.dropWhile_cons, hw.1] using ih hw.2

theorem takeWhile_space_append {w : List Char} (hw : allSpace w = true)
    (y : List Char) :
    (w ++ y).takeWhile isSpaceB = w ++ y.takeWhile isSpaceB := by
  induction w with
  | nil => rfl
  | cons c cs ih =>
    simp only [allSpace, List.all_cons, Bool.and_eq_true] at hw
    simpa [List.takeWhile_cons, hw.1] using ih hw.2

theorem dropWhile_headNonSpace {y : List Char} (h : headNonSpace y = true) :
    y.dropWhile isSpaceB = y := by
  cases y with
  | nil => rfl
  | cons c cs =>
    simp only [headNonSpace, Bool.not_eq_true'] at h
    simp [List.dropWhile_cons, h]

theorem takeWhile_headNonSpace {y : List Char} (h : headNonSpace y = true) :
    y.takeWhile isSpaceB = [] := by
  cases y with
  | nil => rfl
  | cons c cs =>
    simp only [headNonSpace, Bool.not_eq_true'] at h
    simp [List.takeWhile_cons, h]

theorem allSpace_takeWhile (s : List Char) :
    allSpace (s.takeWhile isSpaceB) = true := by
  induction s with
  | nil => rfl
  | cons c cs ih =>
    cases hc : isSpaceB c with
    | true => simp [List.takeWhile_cons, hc, allSpace, ih]
    | false => simp [List.takeWhile_cons, hc, allSpace]

/-! ## Small `drop`/`append` helpers -/

theorem drop_append_le {x : List Char} (y : List Char) :
    ∀ {i : Nat}, i ≤ x.length → (x ++ y).drop i = x.drop i ++ y := by
  induction x with
  | nil =>
    intro i hi
    have h0 : i = 0 := Nat.le_zero.mp (by simpa using hi)
    subst h0
    simp
  | cons c cs ih =>
    intro i hi
    cases i with
    | zero => simp
    | succ j =>
      simpa using ih (by simpa using hi)

theorem drop_append_ge {x : List Char} (y : List Char) :
    ∀ {i : Nat}, x.length ≤ i → (x ++ y).drop i = y.drop (i - x.length) := by
  induction x with
  | nil => intro i _; simp
  | cons c cs ih =>
    intro i hi
    cases i with
    | zero => simp at hi
    | succ j =>
      simpa using ih (by simpa using hi)

/-! ## Scan equations for `subst` -/

theorem substF_fuel_eq {f : List Char → Option (List Char × List Char)}
    (hf : Shrink f) :
    ∀ (fuel1 fuel2 : Nat) (s : List Char), s.length ≤ fuel1 → s.length ≤ fuel2 →
      substF f fuel1 s = substF f fuel2 s := by
  intro fuel1
  induction fuel1 with
  | zero =>
    intro fuel2 s h1 _
    have : s = [] := by
      cases s with
      | nil => rfl
      | cons c cs => simp at h1
    subst this
    cases fuel2 <;> rfl
  | succ k ih =>
    intro fuel2 s h1 h2
    cases s with
    | nil => cases fuel2 <;> rfl
    | cons c cs =>
      cases fuel2 with
      | zero => simp at h2
      | succ k2 =>
        cases hm : f (c :: cs) with
        | none =>
          simp only [substF, hm]
          have := ih k2 cs (by simpa using h1) (by simpa using h2)
          rw [this]
        | some v =>
          obtain ⟨rep, t⟩ := v
          simp only [substF, hm]
          have hlt := hf _ _ _ hm
          simp only [List.length_cons] at hlt h1 h2
          have := ih k2 t (by omega) (by omega)
          rw [this]

theorem subst_cons_some {f : List Char → Option (List Char × List Char)}
    (hf : Shrink f) {c : Char} {cs rep t : List Char}
    (h : f (c :: cs) = some (rep, t)) :
    subst f (c :: cs) = rep ++ subst f t := by
  show substF f (c :: cs).length (c :: cs) = _
  simp only [List.length_cons, substF, h]
  have hlt := hf _ _ _ h
  simp only [List.length_cons] at hlt
  rw [substF_fuel_eq hf cs.length t.length t (by omega) (by omega)]
  rfl

theorem subst_cons_none {f : List Char → Option (List Char × List Char)}
    {c : Char} {cs : List Char} (h : f (c :: cs) = none) :
    subst f (c :: cs) = c :: subst f cs := by
  show substF f (c :: cs).length (c :: cs) = _
  simp only [List.length_cons, substF, h]
  rfl

theorem shrink_none_nil {f : List Char → Option (List Char × List Char)}
    (hf : Shrink f) : f [] = none := by
  cases h : f [] with
  | none => rfl
  | some v =>
    have := hf [] v.1 v.2 (by rw [h])
    simp at this

/-! ## `NoMatch`, `hasM`, identity and skipping -/

theorem isSome_false_none {α : Type} {o : Option α} (h : o.isSome = false) :
    o = none := by
  cases o with
  | none => rfl
  | some v => simp at h

theorem hasM_false_iff (f : List Char → Option (List Char × List Char))
    (s : List Char) : hasM f s = false ↔ NoMatch f s := by
  induction s with
  | nil =>
    constructor
    · intro h i
      simp only [List.drop_nil]
      exact isSome_false_none (by simpa [hasM] using h)
    · intro h
      have := h 0
      simp only [List.drop_nil] at this
      simp [hasM, this]
  | cons c cs ih =>
    constructor
    · intro h i
      simp only [hasM, Bool.or_eq_false_iff] at h
      cases i with
      | zero =>
        simpa using isSome_false_none h.1
      | succ j =>
        simpa using (ih.mp h.2) j
    · intro h
      simp only [hasM, Bool.or_eq_false_iff]
      constructor
      · have := h 0
        simp only [List.drop_zero] at this
        simp [this]
      · exact ih.mpr fun i => by simpa using h (i + 1)

theorem noMatch_suffix {f : List Char → Option (List Char × List Char)}
    {u t : List Char} (h : NoMatch f (u ++ t)) : NoMatch f t := by
  intro i
  have := h (u.length + i)
  rwa [drop_append_ge t (by omega), Nat.add_sub_cancel_left] at this

theorem subst_id {f : List Char → Option (List Char × List Char)}
    {s : List Char} (h : NoMatch f s) : subst f s = s := by
  induction s with
  | nil => rfl
  | cons c cs ih =>
    have h0 : f (c :: cs) = none := by simpa using h 0
    rw [subst_cons_none h0]
    rw [ih fun i => by simpa using h (i + 1)]

theorem noMatch_append {f : List Char → Option (List Char × List Char)}
    {x y : List Char}
    (hx : ∀ i < x.length, ∀ t, f (x.drop i ++ t) = none)
    (hy : NoMatch f y) : NoMatch f (x ++ y) := by
  intro i
  by_cases hi : i < x.length
  · rw [drop_append_le y (le_of_lt hi)]
    exact hx i hi y
  · rw [drop_append_ge y (by omega)]
    exact hy _

theorem subst_skip {f : List Char → Option (List Char × List Char)}
    {x z : List Char}
    (hx : ∀ i < x.length, ∀ t, f (x.drop i ++ t) = none) :
    subst f (x ++ z) = x ++ subst f z := by
  induction x with
  | nil => rfl
  | cons c cs ih =>
    have h0 : f (c :: (cs ++ z)) = none := by
      have := hx 0 (by simp) z
      simpa using this
    show subst f (c :: (cs ++ z)) = _
    rw [subst_cons_none h0]
    rw [ih fun i hi t => by
      have := hx (i + 1) (by simpa using Nat.succ_lt_succ hi) t
      simpa using this]
    rfl

/-! ## First-match decomposition of a scan -/

theorem subst_decomp (f : List Char → Option (List Char × List Char))
    (hf : Shrink f) (s : List Char) :
    (NoMatch f s ∧ subst f s = s) ∨
    ∃ p rep t, (∀ i, i < p → f (s.drop i) = none) ∧ f (s.drop p) = some (rep, t) ∧
      subst f s = s.take p ++ (rep ++ subst f t) ∧ p + t.length < s.length := by
  induction s with
  | nil =>
    left
    exact ⟨fun i => by simpa using shrink_none_nil hf, rfl⟩
  | cons c cs ih =>
    cases hm : f (c :: cs) with
    | some v =>
      obtain ⟨rep, t⟩ := v
      right
      refine ⟨0, rep, t, fun i hi => absurd hi (by omega), by simpa using hm, ?_, ?_⟩
      · rw [subst_cons_some hf hm]
        simp
      · have := hf _ _ _ hm
        simpa using this
    | none =>
      rcases ih with ⟨hnm, hid⟩ | ⟨p, rep, t, hmin, hp, heq, hlen⟩
      · left
        refine ⟨fun i => ?_, ?_⟩
        · cases i with
          | zero => simpa using hm
          | succ j => simpa using hnm j
        · rw [subst_cons_none hm, hid]
      · right
        refine ⟨p + 1, rep, t, fun i hi => ?_, by simpa using hp, ?_, by
          simp only [List.length_cons]; omega⟩
        · cases i with
          | zero => simpa using hm
          | succ j => simpa using hmin j (by omega)
        · rw [subst_cons_none hm, heq]
          rfl

/-! ## Reduction lemmas for the uniform matcher -/

theorem tryRul_fail {r : Rule} {s : List Char} (hm : matchLit r.a s = none) :
    tryRul r s = none := by
  unfold tryRul
  rw [hm]

theorem tryRul_done {r : Rule} {s s1 : List Char} (hm : matchLit r.a s = some s1) :
    tryRul r s =
      if r.hasWs then
        if r.needWs && (s1.takeWhile isSpaceB).isEmpty then none
        else
          match matchLit r.b (s1.dropWhile isSpaceB) with
          | none => none
          | some s3 => some (r.rep, if r.consumeTail then s3 else s1)
      else some (r.rep, s1) := by
  unfold tryRul
  rw [hm]

theorem length_dropWhile_le_sp (s : List Char) :
    (s.dropWhile isSpaceB).length ≤ s.length := by
  induction s with
  | nil => simp
  | cons c cs ih =>
    cases hc : isSpaceB c with
    | true =>
      simp only [List.dropWhile_cons, hc, if_true, List.length_cons]
      omega
    | false => simp [List.dropWhile_cons, hc]

theorem allSpace_of_dropWhile_nil {s : List Char}
    (h : s.dropWhile isSpaceB = []) : allSpace s = true := by
  induction s with
  | nil => rfl
  | cons c cs ih =>
    cases hc : isSpaceB c with
    | true =>
      simp only [List.dropWhile_cons, hc, if_true] at h
      have h2 := ih h
      simp only [allSpace] at h2 ⊢
      simp [List.all_cons, hc, h2]
    | false => simp [List.dropWhile_cons, hc] at h

theorem tryRul_shrink {r : Rule} (ha : r.a ≠ []) : Shrink (tryRul r) := by
  intro s rep t h
  cases hm : matchLit r.a s with
  | none => rw [tryRul_fail hm] at h; cases h
  | some s1 =>
    have hs : s = r.a ++ s1 := matchLit_eq_some hm
    have hlen : s1.length < s.length := by
      rw [hs, List.length_append]
      cases hA : r.a with
      | nil => exact absurd hA ha
      | cons d ds => simp
    rw [tryRul_done hm] at h
    cases hw : r.hasWs with
    | false =>
      rw [hw, if_neg Bool.false_ne_true] at h
      simp only [Option.some.injEq, Prod.mk.injEq] at h
      rw [← h.2]
      exact hlen
    | true =>
      rw [hw, if_pos rfl] at h
      by_cases hg : (r.needWs && (s1.takeWhile isSpaceB).isEmpty) = true
      · rw [if_pos hg] at h; cases h
      · rw [if_neg hg] at h
        cases hb : matchLit r.b (s1.dropWhile isSpaceB) with
        | none => rw [hb] at h; cases h
        | some s3 =>
          rw [hb] at h
          simp only [Option.some.injEq, Prod.mk.injEq] at h
          have h3 : s3.length ≤ (s1.dropWhile isSpaceB).length := by
            have := matchLit_eq_some hb
            rw [this, List.length_append]
            omega
          have h4 := length_dropWhile_le_sp s1
          cases hc : r.consumeTail with
          | true =>
            rw [hc, if_pos rfl] at h
            rw [← h.2]
            omega
          | false =>
            rw [hc, if_neg Bool.false_ne_true] at h
            rw [← h.2]
            exact hlen

theorem headNonSpace_append {x : List Char} (h : headNonSpace x = true)
    (z : List Char) : headNonSpace (x ++ z) = true := by
  cases x with
  | nil => cases h
  | cons c cs => exact h

/-! ## Correctness of the dead-position checkers -/

theorem deadAt_spec {r : Rule} {ys : List Char} (h : deadAt r ys = true)
    (t : List Char) : tryRul r (ys ++ t) = none := by
  unfold deadAt at h
  cases ha : litScan r.a ys with
  | fail => exact tryRul_fail (litScan_fail ha t)
  | more q =>
    rw [ha] at h
    replace h : false = true := h
    cases h
  | done s1 =>
    rw [ha] at h
    replace h : (if r.hasWs then
        if (s1.dropWhile isSpaceB).isEmpty then false
        else if r.needWs && (s1.takeWhile isSpaceB).isEmpty then true
        else litFailIn r.b (s1.dropWhile isSpaceB)
      else false) = true := h
    have hys : ys = r.a ++ s1 := litScan_done ha
    have hm : matchLit r.a (ys ++ t) = some (s1 ++ t) := by
      rw [hys, List.append_assoc]
      exact matchLit_append_self _ _
    rw [tryRul_done hm]
    cases hw : r.hasWs with
    | false => rw [hw, if_neg Bool.false_ne_true] at h; cases h
    | true =>
      rw [hw, if_pos rfl] at h
      rw [if_pos rfl]
      by_cases he : (s1.dropWhile isSpaceB).isEmpty = true
      · rw [if_pos he] at h; cases h
      · rw [if_neg he] at h
        have hne : s1.dropWhile isSpaceB ≠ [] := by
          simpa [List.isEmpty_iff] using he
        rw [takeWhile_append_ne t hne, dropWhile_append_ne t hne]
        by_cases hg : (r.needWs && (s1.takeWhile isSpaceB).isEmpty) = true
        · rw [if_pos hg]
        · rw [if_neg hg] at h ⊢
          rw [litFailIn_spec h t]

theorem deadAll_spec {r : Rule} {x : List Char} (h : deadAll r x = true) :
    ∀ i < x.length, ∀ t, tryRul r (x.drop i ++ t) = none := by
  intro i hi t
  unfold deadAll at h
  have := (List.all_eq_true.mp h) i (List.mem_range.mpr hi)
  exact deadAt_spec this t

theorem sufDead_spec {p x : List Char} (h : sufDead p x = true)
    {d : Nat} (h1 : 1 ≤ d) (h2 : d < p.length) :
    litFailIn (p.drop d) x = true := by
  unfold sufDead at h
  refine (List.all_eq_true.mp h) d ?_
  exact List.mem_range'_1.mpr ⟨h1, by omega⟩

/-! ## The straddle lemma: a partial match cannot continue through a
replacement block -/

theorem straddle_core {rk : Rule} {x : List Char}
    (hsd : straddleDead rk x = true) (hns : headNonSpace x = true)
    {u y : List Char} (hu : u ≠ []) (hnm : tryRul rk (u ++ y) = none)
    (z : List Char) : tryRul rk (u ++ (x ++ z)) = none := by
  unfold straddleDead at hsd
  rw [Bool.and_eq_true] at hsd
  obtain ⟨hsa, hsb⟩ := hsd
  cases ha : litScan rk.a u with
  | fail => exact tryRul_fail (litScan_fail ha _)
  | more q =>
    obtain ⟨haq, hqne⟩ := litScan_more ha
    have hd1 : 1 ≤ u.length := by
      cases u with
      | nil => exact absurd rfl hu
      | cons c cs => simp
    have hd2 : u.length < rk.a.length := by
      rw [haq, List.length_append]
      cases q with
      | nil => exact absurd rfl hqne
      | cons c cs => simp
    have hfail := sufDead_spec hsa hd1 hd2
    have hq : rk.a.drop u.length = q := by
      rw [haq]
      exact List.drop_left u q
    rw [hq] at hfail
    apply tryRul_fail
    have hml : matchLit rk.a (u ++ (x ++ z)) = matchLit q (x ++ z) := by
      conv_lhs => rw [haq]
      exact matchLit_append_left u q (x ++ z)
    rw [hml]
    exact litFailIn_spec hfail z
  | done s1u =>
    have hua : u = rk.a ++ s1u := litScan_done ha
    have hmY : ∀ Y : List Char, matchLit rk.a (u ++ Y) = some (s1u ++ Y) := by
      intro Y
      rw [hua, List.append_assoc]
      exact matchLit_append_self _ _
    cases hw : rk.hasWs with
    | false =>
      exfalso
      rw [tryRul_done (hmY y), hw, if_neg Bool.false_ne_true] at hnm
      cases hnm
    | true =>
      rw [hw] at hsb
      simp only [Bool.not_true, Bool.false_or] at hsb
      rw [Bool.and_eq_true] at hsb
      obtain ⟨hbf, hbs⟩ := hsb
      rw [tryRul_done (hmY (x ++ z)), hw, if_pos rfl]
      by_cases he : s1u.dropWhile isSpaceB = []
      · have hall : allSpace s1u = true := allSpace_of_dropWhile_nil he
        have hnsxz : headNonSpace (x ++ z) = true := headNonSpace_append hns z
        have htw : (s1u ++ (x ++ z)).takeWhile isSpaceB = s1u ++ [] := by
          rw [takeWhile_space_append hall, takeWhile_headNonSpace hnsxz]
        have hdw : (s1u ++ (x ++ z)).dropWhile isSpaceB = x ++ z := by
          rw [dropWhile_space_append hall, dropWhile_headNonSpace hnsxz]
        rw [htw, hdw]
        by_cases hg : (rk.needWs && (s1u ++ []).isEmpty) = true
        · rw [if_pos hg]
        · rw [if_neg hg]
          rw [litFailIn_spec hbf z]
      · have htw := takeWhile_append_ne (x ++ z) he
        have hdw := dropWhile_append_ne (x ++ z) he
        rw [htw, hdw]
        by_cases hg : (rk.needWs && (s1u.takeWhile isSpaceB).isEmpty) = true
        · rw [if_pos hg]
        · rw [if_neg hg]
          rw [tryRul_done (hmY y), hw, if_pos rfl, takeWhile_append_ne y he,
            dropWhile_append_ne y he, if_neg hg] at hnm
          cases hb : litScan rk.b (s1u.dropWhile isSpaceB) with
          | fail =>
            rw [litScan_fail hb (x ++ z)]
          | done rb =>
            exfalso
            have hbm : matchLit rk.b (s1u.dropWhile isSpaceB ++ y) = some (rb ++ y) := by
              rw [litScan_done hb, List.append_assoc]
              exact matchLit_append_self _ _
            rw [hbm] at hnm
            cases hnm
          | more qb =>
            obtain ⟨hbq, hqbne⟩ := litScan_more hb
            have hd1 : 1 ≤ (s1u.dropWhile isSpaceB).length := by
              cases hss : s1u.dropWhile isSpaceB with
              | nil => exact absurd hss he
              | cons c cs => simp
            have hd2 : (s1u.dropWhile isSpaceB).length < rk.b.length := by
              rw [hbq, List.length_append]
              cases qb with
              | nil => exact absurd rfl hqbne
              | cons c cs => simp
            have hfail := sufDead_spec hbs hd1 hd2
            have hq : rk.b.drop (s1u.dropWhile isSpaceB).length = qb := by
              rw [hbq]
              exact List.drop_left _ _
            rw [hq] at hfail
            have hmb : matchLit rk.b (s1u.dropWhile isSpaceB ++ (x ++ z)) =
                matchLit qb (x ++ z) := by
              conv_lhs => rw [hbq]
              exact matchLit_append_left _ _ _
            rw [hmb, litFailIn_spec hfail z]

/-! ## What one match consumes -/

theorem tryRul_consumed {r : Rule} {s rep t : List Char}
    (h : tryRul r s = some (rep, t)) :
    rep = r.rep ∧ ∃ m, Consumed r m ∧ s = m ++ t := by
  cases hm : matchLit r.a s with
  | none => rw [tryRul_fail hm] at h; cases h
  | some s1 =>
    have hs : s = r.a ++ s1 := matchLit_eq_some hm
    rw [tryRul_done hm] at h
    cases hw : r.hasWs with
    | false =>
      rw [hw, if_neg Bool.false_ne_true] at h
      simp only [Option.some.injEq, Prod.mk.injEq] at h
      exact ⟨h.1.symm, r.a, Or.inl rfl, by rw [hs, h.2]⟩
    | true =>
      rw [hw, if_pos rfl] at h
      by_cases hg : (r.needWs && (s1.takeWhile isSpaceB).isEmpty) = true
      · rw [if_pos hg] at h; cases h
      · rw [if_neg hg] at h
        cases hb : matchLit r.b (s1.dropWhile isSpaceB) with
        | none => rw [hb] at h; cases h
        | some s3 =>
          rw [hb] at h
          simp only [Option.some.injEq, Prod.mk.injEq] at h
          cases hc : r.consumeTail with
          | false =>
            rw [hc, if_neg Bool.false_ne_true] at h
            exact ⟨h.1.symm, r.a, Or.inl rfl, by rw [hs, h.2]⟩
          | true =>
            rw [hc, if_pos rfl] at h
            refine ⟨h.1.symm, r.a ++ s1.takeWhile isSpaceB ++ r.b,
              Or.inr ⟨s1.takeWhile isSpaceB, allSpace_takeWhile s1, rfl⟩, ?_⟩
            rw [hs, ← h.2]
            conv_lhs => rw [← List.takeWhile_append_dropWhile (p := isSpaceB) (l := s1)]
            rw [matchLit_eq_some hb]
            simp [List.append_assoc]

/-! ## The master theorem: a pass of rule `rj` leaves and creates no
match of rule `rk`, given the decidable interference checks -/

theorem noMatch_append2 {f : List Char → Option (List Char × List Char)}
    {x y : List Char}
    (hx : ∀ i < x.length, f (x.drop i ++ y) = none)
    (hy : NoMatch f y) : NoMatch f (x ++ y) := by
  intro i
  by_cases hi : i < x.length
  · rw [drop_append_le y (le_of_lt hi)]
    exact hx i hi
  · rw [drop_append_ge y (by omega)]
    exact hy _

theorem master {rk rj : Rule}
    (hka : rk.a ≠ []) (hja : rj.a ≠ [])
    (hD1 : deadAll rk rj.rep = true)
    (hD2 : straddleDead rk rj.rep = true)
    (hns : headNonSpace rj.rep = true) :
    ∀ (n : Nat) (s : List Char), s.length ≤ n →
      (rk = rj ∨ NoMatch (tryRul rk) s) →
      NoMatch (tryRul rk) (subst (tryRul rj) s) := by
  intro n
  induction n with
  | zero =>
    intro s hlen _
    have hnil : s = [] := by
      cases s with
      | nil => rfl
      | cons c cs => simp at hlen
    subst hnil
    intro i
    have hsub : subst (tryRul rj) ([] : List Char) = [] := rfl
    rw [hsub, List.drop_nil]
    exact shrink_none_nil (tryRul_shrink hka)
  | succ n ih =>
    intro s hlen hpre
    rcases subst_decomp (tryRul rj) (tryRul_shrink hja) s with
      ⟨hnmj, hid⟩ | ⟨p, rep, t, hmin, hp, heq, hplen⟩
    · rw [hid]
      rcases hpre with hkj | hnk
      · rw [hkj]; exact hnmj
      · exact hnk
    · rw [heq]
      obtain ⟨hrep, m, hcm, hsplit⟩ := tryRul_consumed hp
      have hts : s = (s.take p ++ m) ++ t := by
        conv_lhs => rw [← List.take_append_drop p s]
        rw [hsplit, List.append_assoc]
      have hplt : p < s.length := by omega
      have htn : t.length ≤ n := by omega
      have hin : NoMatch (tryRul rk) (subst (tryRul rj) t) := by
        apply ih t htn
        rcases hpre with hkj | hnk
        · exact Or.inl hkj
        · exact Or.inr (by rw [hts] at hnk; exact noMatch_suffix hnk)
      have hnmpre : ∀ i, i < p → tryRul rk (s.drop i) = none := by
        intro i hi
        rcases hpre with hkj | hnk
        · rw [hkj]; exact hmin i hi
        · exact hnk i
      rw [hrep]
      apply noMatch_append2
      · intro i hi
        have hip : i < p := by
          have hlt : (s.take p).length = p := by
            rw [List.length_take]
            omega
          omega
        have hnonnil : (s.take p).drop i ≠ [] := by
          intro hme
          have hl := congrArg List.length hme
          simp only [List.length_drop, List.length_take, List.length_nil] at hl
          omega
        have hxi : (s.take p).drop i ++ s.drop p = s.drop i := by
          have h1 : (s.take p).drop i = (s.drop i).take (p - i) := by
            rw [List.drop_take]
          have h2 : (s.drop i).drop (p - i) = s.drop p := by
            rw [List.drop_drop]
            congr 1
            omega
          rw [h1, ← h2, List.take_append_drop]
        have hnm_i : tryRul rk ((s.take p).drop i ++ s.drop p) = none := by
          rw [hxi]
          exact hnmpre i hip
        exact straddle_core hD2 hns hnonnil hnm_i (subst (tryRul rj) t)
      · apply noMatch_append2
        · intro i hi
          exact deadAll_spec hD1 i hi _
        · exact hin

theorem noMatch_subst_self {r : Rule} (ha : r.a ≠ [])
    (hD1 : deadAll r r.rep = true) (hD2 : straddleDead r r.rep = true)
    (hns : headNonSpace r.rep = true) (s : List Char) :
    NoMatch (tryRul r) (subst (tryRul r) s) :=
  master ha ha hD1 hD2 hns s.length s (le_refl _) (Or.inl rfl)

theorem noMatch_subst_pres {rk rj : Rule} (hka : rk.a ≠ []) (hja : rj.a ≠ [])
    (hD1 : deadAll rk rj.rep = true) (hD2 : straddleDead rk rj.rep = true)
    (hns : headNonSpace rj.rep = true) {s : List Char}
    (h : NoMatch (tryRul rk) s) :
    NoMatch (tryRul rk) (subst (tryRul rj) s) :=
  master hka hja hD1 hD2 hns s.length s (le_refl _) (Or.inr h)

theorem self_compat {r : Rule} (h : compat r r = true) (s : List Char) :
    NoMatch (tryRul r) (subst (tryRul r) s) := by
  unfold compat at h
  simp only [Bool.and_eq_true, decide_eq_true_eq] at h
  exact noMatch_subst_self h.1.1.1.1 h.1.1.2 h.1.2 h.2 s

theorem pres_compat {rk rj : Rule} (h : compat rk rj = true) {s : List Char}
    (hnm : NoMatch (tryRul rk) s) :
    NoMatch (tryRul rk) (subst (tryRul rj) s) := by
  unfold compat at h
  simp only [Bool.and_eq_true, decide_eq_true_eq] at h
  exact noMatch_subst_pres h.1.1.1.1 h.1.1.1.2 h.1.1.2 h.1.2 h.2 hnm

/-! ## Bridging the faithful per-rule matchers to the uniform engine -/

theorem subst_congr {f g : List Char → Option (List Char × List Char)}
    (h : ∀ s, f s = g s) (s : List Char) : subst f s = subst g s := by
  suffices h2 : ∀ fuel u, substF f fuel u = substF g fuel u from h2 _ s
  intro fuel
  induction fuel with
  | zero => intro u; rfl
  | succ n ih =>
    intro u
    cases u with
    | nil => rfl
    | cons c cs =>
      have hfc := h (c :: cs)
      cases hm : g (c :: cs) with
      | none =>
        rw [hm] at hfc
        simp only [substF, hfc, hm]
        rw [ih]
      | some v =>
        obtain ⟨rep, t⟩ := v
        rw [hm] at hfc
        simp only [substF, hfc, hm]
        rw [ih]

theorem try2_eq (s : List Char) : try2 s = tryRul rul2 s := by
  simp only [try2, tryRul, rul2]
  cases hm : matchLit divBorder13 s <;> simp [hm]

theorem try3_eq (s : List Char) : try3 s = tryRul rul3 s := by
  simp only [try3, tryRul, rul3]
  cases hm : matchLit lsp s with
  | none => rfl
  | some s1 =>
    simp only
    by_cases he : (s1.takeWhile isSpaceB).isEmpty = true
    · simp [he]
    · simp only [he, Bool.true_and, if_neg he]
      cases hb : matchLit bb13 (s1.dropWhile isSpaceB) <;> simp [hb]

theorem try5_eq (s : List Char) : try5 s = tryRul rul5 s := by
  simp only [try5, tryRul, rul5]
  cases hm : matchLit taMb13 s <;> simp [hm]

theorem try6_eq (s : List Char) : try6 s = tryRul rul6 s := by
  simp only [try6, tryRul, rul6]
  cases hm : matchLit taPb10 s <;> simp [hm]

theorem try8_eq (s : List Char) : try8 s = tryRul rul8 s := by
  simp only [try8, tryRul, rul8]
  cases hm : matchLit tdPad24 s <;> simp [hm]

theorem try1_fail {s : List Char} (hm : matchLit tdPad13 s = none) :
    try1 s = none := by
  unfold try1
  rw [hm]

theorem try1_done {s s1 : List Char} (hm : matchLit tdPad13 s = some s1) :
    try1 s =
      match matchLit cmTop (s1.dropWhile isSpaceB) with
      | none => none
      | some s2 => some (tdPad20 ++ s1.takeWhile isSpaceB ++ cmTop, s2) := by
  unfold try1
  rw [hm]

theorem try4_fail {s : List Char} (hm : matchLit tdPad13 s = none) :
    try4 s = none := by
  unfold try4
  rw [hm]

theorem try4_done {s s1 : List Char} (hm : matchLit tdPad13 s = some s1) :
    try4 s =
      match matchLit divFont (s1.dropWhile isSpaceB) with
      | none => none
      | some s2 => some (tdPad20 ++ s1.takeWhile isSpaceB ++ divFont, s2) := by
  unfold try4
  rw [hm]

theorem try1_shrink : Shrink try1 := by
  intro s rep t h
  cases hm : matchLit tdPad13 s with
  | none => rw [try1_fail hm] at h; cases h
  | some s1 =>
    rw [try1_done hm] at h
    cases hb : matchLit cmTop (s1.dropWhile isSpaceB) with
    | none => rw [hb] at h; cases h
    | some s2 =>
      rw [hb] at h
      replace h : some (tdPad20 ++ s1.takeWhile isSpaceB ++ cmTop, s2) =
        some (rep, t) := h
      replace h := Option.some.inj h
      have ht : t = s2 := (congrArg Prod.snd h).symm
      have h1 : s = tdPad13 ++ s1 := matchLit_eq_some hm
      have h2 : s1.dropWhile isSpaceB = cmTop ++ s2 := matchLit_eq_some hb
      have h3 : s2.length ≤ (s1.dropWhile isSpaceB).length := by
        rw [h2, List.length_append]
        omega
      have h4 := length_dropWhile_le_sp s1
      have h5 : s1.length < s.length := by
        rw [h1, List.length_append]
        have h31 : tdPad13.length = 31 := by decide
        omega
      rw [← ht] at h3
      omega

theorem try4_shrink : Shrink try4 := by
  intro s rep t h
  cases hm : matchLit tdPad13 s with
  | none => rw [try4_fail hm] at h; cases h
  | some s1 =>
    rw [try4_done hm] at h
    cases hb : matchLit divFont (s1.dropWhile isSpaceB) with
    | none => rw [hb] at h; cases h
    | some s2 =>
      rw [hb] at h
      replace h : some (tdPad20 ++ s1.takeWhile isSpaceB ++ divFont, s2) =
        some (rep, t) := h
      replace h := Option.some.inj h
      have ht : t = s2 := (congrArg Prod.snd h).symm
      have h1 : s = tdPad13 ++ s1 := matchLit_eq_some hm
      have h2 : s1.dropWhile isSpaceB = divFont ++ s2 := matchLit_eq_some hb
      have h3 : s2.length ≤ (s1.dropWhile isSpaceB).length := by
        rw [h2, List.length_append]
        omega
      have h4 := length_dropWhile_le_sp s1
      have h5 : s1.length < s.length := by
        rw [h1, List.length_append]
        have h31 : tdPad13.length = 31 := by decide
        omega
      rw [← ht] at h3
      omega

theorem tryRul_space_head {r : Rule} (hr : headNonSpace r.a = true)
    {c : Char} (hc : isSpaceB c = true) (t : List Char) :
    tryRul r (c :: t) = none := by
  apply tryRul_fail
  cases hA : r.a with
  | nil => rw [hA] at hr; cases hr
  | cons p ps =>
    rw [hA] at hr
    simp only [headNonSpace, Bool.not_eq_true'] at hr
    simp only [matchLit]
    rw [if_neg]
    intro hcp
    rw [← hcp, hc] at hr
    cases hr

theorem dead_space_block {r : Rule} (hra : headNonSpace r.a = true)
    {w x : List Char} (hw : allSpace w = true) (hx : deadAll r x = true) :
    ∀ i < (w ++ x).length, ∀ t, tryRul r ((w ++ x).drop i ++ t) = none := by
  intro i hi t
  by_cases hiw : i < w.length
  · rw [drop_append_le x (le_of_lt hiw)]
    cases hwd : w.drop i with
    | nil =>
      exfalso
      have hl := congrArg List.length hwd
      simp only [List.length_drop, List.length_nil] at hl
      omega
    | cons d ds =>
      have hd : isSpaceB d = true := by
        have hmem : d ∈ w := by
          have hmem2 : d ∈ w.drop i := by rw [hwd]; simp
          exact List.mem_of_mem_drop hmem2
        unfold allSpace at hw
        exact (List.all_eq_true.mp hw) d hmem
      rw [List.cons_append, List.cons_append]
      exact tryRul_space_head hra hd _
  · rw [drop_append_ge x (by omega)]
    refine deadAll_spec hx (i - w.length) ?_ t
    simp only [List.length_append] at hi
    omega

theorem subst_skip_space {r : Rule} (hra : headNonSpace r.a = true)
    {w x : List Char} (hw : allSpace w = true) (hx : deadAll r x = true)
    (z : List Char) :
    subst (tryRul r) ((w ++ x) ++ z) = (w ++ x) ++ subst (tryRul r) z :=
  subst_skip (dead_space_block hra hw hx)

theorem subst_try1_eq : ∀ (n : Nat) (s : List Char), s.length ≤ n →
    subst try1 s = subst (tryRul rul1) s := by
  intro n
  induction n with
  | zero =>
    intro s hlen
    have hnil : s = [] := by
      cases s with
      | nil => rfl
      | cons c cs => simp at hlen
    subst hnil
    rfl
  | succ n ih =>
    intro s hlen
    cases s with
    | nil => rfl
    | cons c cs =>
      cases hm : matchLit tdPad13 (c :: cs) with
      | none =>
        have h1 : try1 (c :: cs) = none := try1_fail hm
        have h2 : tryRul rul1 (c :: cs) = none := tryRul_fail hm
        rw [subst_cons_none h1, subst_cons_none h2,
          ih cs (by simpa using Nat.le_of_succ_le_succ hlen)]
      | some s1 =>
        cases hb : matchLit cmTop (s1.dropWhile isSpaceB) with
        | none =>
          have h1 : try1 (c :: cs) = none := by rw [try1_done hm, hb]
          have h2 : tryRul rul1 (c :: cs) = none := by
            rw [tryRul_done (show matchLit rul1.a (c :: cs) = some s1 from hm)]
            simp [rul1, hb]
          rw [subst_cons_none h1, subst_cons_none h2,
            ih cs (by simpa using Nat.le_of_succ_le_succ hlen)]
        | some s2 =>
          have h1 : try1 (c :: cs) =
              some (tdPad20 ++ s1.takeWhile isSpaceB ++ cmTop, s2) := by
            rw [try1_done hm, hb]
          have h2 : tryRul rul1 (c :: cs) = some (tdPad20, s1) := by
            rw [tryRul_done (show matchLit rul1.a (c :: cs) = some s1 from hm)]
            simp [rul1, hb]
          rw [subst_cons_some try1_shrink h1,
            subst_cons_some (tryRul_shrink (by decide)) h2]
          have hlt1 := try1_shrink _ _ _ h1
          simp only [List.length_cons] at hlt1 hlen
          have hs1 : s1 = (s1.takeWhile isSpaceB ++ cmTop) ++ s2 := by
            conv_lhs => rw [← List.takeWhile_append_dropWhile (p := isSpaceB) (l := s1)]
            rw [matchLit_eq_some hb, List.append_assoc]
          conv_rhs => rw [hs1]
          rw [subst_skip_space (by decide) (allSpace_takeWhile s1) (by decide) s2]
          rw [ih s2 (by omega)]
          simp [List.append_assoc]

theorem subst_try4_eq : ∀ (n : Nat) (s : List Char), s.length ≤ n →
    subst try4 s = subst (tryRul rul4) s := by
  intro n
  induction n with
  | zero =>
    intro s hlen
    have hnil : s = [] := by
      cases s with
      | nil => rfl
      | cons c cs => simp at hlen
    subst hnil
    rfl
  | succ n ih =>
    intro s hlen
    cases s with
    | nil => rfl
    | cons c cs =>
      cases hm : matchLit tdPad13 (c :: cs) with
      | none =>
        have h1 : try4 (c :: cs) = none := try4_fail hm
        have h2 : tryRul rul4 (c :: cs) = none := tryRul_fail hm
        rw [subst_cons_none h1, subst_cons_none h2,
          ih cs (by simpa using Nat.le_of_succ_le_succ hlen)]
      | some s1 =>
        cases hb : matchLit divFont (s1.dropWhile isSpaceB) with
        | none =>
          have h1 : try4 (c :: cs) = none := by rw [try4_done hm, hb]
          have h2 : tryRul rul4 (c :: cs) = none := by
            rw [tryRul_done (show matchLit rul4.a (c :: cs) = some s1 from hm)]
            simp [rul4, hb]
          rw [subst_cons_none h1, subst_cons_none h2,
            ih cs (by simpa using Nat.le_of_succ_le_succ hlen)]
        | some s2 =>
          have h1 : try4 (c :: cs) =
              some (tdPad20 ++ s1.takeWhile isSpaceB ++ divFont, s2) := by
            rw [try4_done hm, hb]
          have h2 : tryRul rul4 (c :: cs) = some (tdPad20, s1) := by
            rw [tryRul_done (show matchLit rul4.a (c :: cs) = some s1 from hm)]
            simp [rul4, hb]
          rw [subst_cons_some try4_shrink h1,
            subst_cons_some (tryRul_shrink (by decide)) h2]
          have hlt1 := try4_shrink _ _ _ h1
          simp only [List.length_cons] at hlt1 hlen
          have hs1 : s1 = (s1.takeWhile isSpaceB ++ divFont) ++ s2 := by
            conv_lhs => rw [← List.takeWhile_append_dropWhile (p := isSpaceB) (l := s1)]
            rw [matchLit_eq_some hb, List.append_assoc]
          conv_rhs => rw [hs1]
          rw [subst_skip_space (by decide) (allSpace_takeWhile s1) (by decide) s2]
          rw [ih s2 (by omega)]
          simp [List.append_assoc]

theorem applyRules_eq (c : List Char) : applyRules c = pipeR c := by
  unfold applyRules pipeR
  rw [subst_try1_eq c.length c (le_refl _), subst_congr try2_eq,
    subst_congr try3_eq, subst_try4_eq _ _ (le_refl _), subst_congr try5_eq,
    subst_congr try6_eq, subst_congr try8_eq]

/-! ## No rule pattern survives the full pipeline -/

theorem pipeR_noMatch (c : List Char) :
    NoMatch (tryRul rul1) (pipeR c) ∧ NoMatch (tryRul rul2) (pipeR c) ∧
      NoMatch (tryRul rul3) (pipeR c) ∧ NoMatch (tryRul rul4) (pipeR c) ∧
      NoMatch (tryRul rul5) (pipeR c) ∧ NoMatch (tryRul rul6) (pipeR c) ∧
      NoMatch (tryRul rul8) (pipeR c) := by
  unfold pipeR
  refine ⟨?_, ?_, ?_, ?_, ?_, ?_, ?_⟩
  · exact pres_compat (by decide) (pres_compat (by decide) (pres_compat
      (by decide) (pres_compat (by decide) (pres_compat (by decide)
        (pres_compat (by decide) (self_compat (by decide) c))))))
  · exact pres_compat (by decide) (pres_compat (by decide) (pres_compat
      (by decide) (pres_compat (by decide) (pres_compat (by decide)
        (self_compat (by decide) _)))))
  · exact pres_compat (by decide) (pres_compat (by decide) (pres_compat
      (by decide) (pres_compat (by decide) (self_compat (by decide) _))))
  · exact pres_compat (by decide) (pres_compat (by decide) (pres_compat
      (by decide) (self_compat (by decide) _)))
  · exact pres_compat (by decide) (pres_compat (by decide)
      (self_compat (by decide) _))
  · exact pres_compat (by decide) (self_compat (by decide) _)
  · exact self_compat (by decide) _

theorem pipeR_fixed (c : List Char) : pipeR (pipeR c) = pipeR c := by
  obtain ⟨h1, h2, h3, h4, h5, h6, h8⟩ := pipeR_noMatch c
  show subst (tryRul rul8) (subst (tryRul rul6) (subst (tryRul rul5)
    (subst (tryRul rul4) (subst (tryRul rul3) (subst (tryRul rul2)
      (subst (tryRul rul1) (pipeR c))))))) = pipeR c
  rw [subst_id h1, subst_id h2, subst_id h3, subst_id h4, subst_id h5,
    subst_id h6, subst_id h8]

theorem applyRules_fixed (c : List Char) :
    applyRules (applyRules c) = applyRules c := by
  rw [applyRules_eq (applyRules c), applyRules_eq c, pipeR_fixed]

theorem try1_none_iff (s : List Char) : try1 s = none ↔ tryRul rul1 s = none := by
  cases hm : matchLit tdPad13 s with
  | none =>
    simp [try1_fail hm, tryRul_fail (show matchLit rul1.a s = none from hm)]
  | some s1 =>
    rw [try1_done hm, tryRul_done (show matchLit rul1.a s = some s1 from hm)]
    cases hb : matchLit cmTop (s1.dropWhile isSpaceB) with
    | none => simp [rul1, hb]
    | some s2 => simp [rul1, hb]

theorem try4_none_iff (s : List Char) : try4 s = none ↔ tryRul rul4 s = none := by
  cases hm : matchLit tdPad13 s with
  | none =>
    simp [try4_fail hm, tryRul_fail (show matchLit rul4.a s = none from hm)]
  | some s1 =>
    rw [try4_done hm, tryRul_done (show matchLit rul4.a s = some s1 from hm)]
    cases hb : matchLit divFont (s1.dropWhile isSpaceB) with
    | none => simp [rul4, hb]
    | some s2 => simp [rul4, hb]

/-- After the full pipeline, none of the seven patterns matches anywhere. -/
theorem applyRules_noMatch_all (s : List Char) :
    hasM try1 (applyRules s) = false ∧ hasM try2 (applyRules s) = false ∧
      hasM try3 (applyRules s) = false ∧ hasM try4 (applyRules s) = false ∧
      hasM try5 (applyRules s) = false ∧ hasM try6 (applyRules s) = false ∧
      hasM try8 (applyRules s) = false := by
  obtain ⟨h1, h2, h3, h4, h5, h6, h8⟩ := pipeR_noMatch s
  rw [applyRules_eq]
  exact ⟨(hasM_false_iff _ _).mpr fun i => (try1_none_iff _).mpr (h1 i),
    (hasM_false_iff _ _).mpr fun i => (try2_eq _).trans (h2 i),
    (hasM_false_iff _ _).mpr fun i => (try3_eq _).trans (h3 i),
    (hasM_false_iff _ _).mpr fun i => (try4_none_iff _).mpr (h4 i),
    (hasM_false_iff _ _).mpr fun i => (try5_eq _).trans (h5 i),
    (hasM_false_iff _ _).mpr fun i => (try6_eq _).trans (h6 i),
    (hasM_false_iff _ _).mpr fun i => (try8_eq _).trans (h8 i)⟩

theorem occursLit_24_eq (x : List Char) : occursLit tdPad24 x = hasM try8 x := by
  induction x with
  | nil => decide
  | cons c cs ih =>
    simp only [occursLit, hasM, ih]
    congr 1
    cases hm : matchLit tdPad24 (c :: cs) with
    | none => simp [try8, hm]
    | some s1 => simp [try8, hm]

/-! ## Fragment preservation: a scan leaves a protected fragment intact
(or rewrites it in place, for the rule that matches it) -/

theorem take_append_le {x : List Char} (y : List Char) :
    ∀ {i : Nat}, i ≤ x.length → (x ++ y).take i = x.take i := by
  induction x with
  | nil =>
    intro i hi
    have h0 : i = 0 := Nat.le_zero.mp (by simpa using hi)
    subst h0
    simp
  | cons c cs ih =>
    intro i hi
    cases i with
    | zero => simp
    | succ j => simpa using ih (by simpa using hi)

theorem meshes_of_append_eq {x t F v : List Char} (h : x ++ t = F ++ v) :
    Meshes x F := by
  by_cases hle : x.length ≤ F.length
  · left
    refine ⟨F.drop x.length, ?_⟩
    have hx : x = F.take x.length := by
      have h1 := congrArg (List.take x.length) h
      rw [take_append_le t (le_refl _), List.take_length,
        take_append_le v hle] at h1
      exact h1
    conv_lhs => rw [← List.take_append_drop x.length F, ← hx]
  · right
    refine ⟨x.drop F.length, ?_⟩
    have hx : F = x.take F.length := by
      have h1 := congrArg (List.take F.length) h
      rw [take_append_le v (le_refl _), List.take_length,
        take_append_le t (by omega)] at h1
      exact h1.symm
    conv_lhs => rw [← List.take_append_drop F.length x, ← hx]

theorem clash2_append_left {x y : List Char} (h : clash2 x y = true)
    (x2 : List Char) : clash2 (x ++ x2) y = true := by
  induction x generalizing y with
  | nil => cases h
  | cons a as ih =>
    cases y with
    | nil => cases h
    | cons b bs =>
      simp only [clash2] at h
      simp only [List.cons_append, clash2]
      by_cases hab : a = b
      · rw [if_pos hab] at h ⊢
        exact ih h
      · rw [if_neg hab]

theorem not_meshes_of_clash2 {x fpre : List Char} (h : clash2 x fpre = true)
    (rest : List Char) : ¬ Meshes x (fpre ++ rest) := by
  induction x generalizing fpre with
  | nil => cases h
  | cons a as ih =>
    cases fpre with
    | nil => cases h
    | cons b bs =>
      simp only [clash2] at h
      by_cases hab : a = b
      · rw [if_pos hab] at h
        intro hm
        apply ih h
        rcases hm with ⟨z, hz⟩ | ⟨z, hz⟩
        · left
          refine ⟨z, ?_⟩
          simp only [List.cons_append, List.cons.injEq] at hz
          exact hz.2
        · right
          refine ⟨z, ?_⟩
          simp only [List.cons_append, List.cons.injEq] at hz
          exact hz.2
      · intro hm
        rcases hm with ⟨z, hz⟩ | ⟨z, hz⟩
        · simp only [List.cons_append, List.cons.injEq] at hz
          exact hab hz.1.symm
        · simp only [List.cons_append, List.cons.injEq] at hz
          exact hab hz.1

theorem not_meshes_space_head {c f : Char} {x F : List Char}
    (hc : isSpaceB c = true) (hf : isSpaceB f = false) :
    ¬ Meshes (c :: x) (f :: F) := by
  intro hm
  rcases hm with ⟨z, hz⟩ | ⟨z, hz⟩
  · simp only [List.cons_append, List.cons.injEq] at hz
    rw [hz.1, hc] at hf
    cases hf
  · simp only [List.cons_append, List.cons.injEq] at hz
    rw [hz.1, hf] at hc
    cases hc

theorem sufClash_spec {m fpre : List Char} (h : sufClash m fpre = true)
    {d : Nat} (h1 : 1 ≤ d) (h2 : d < m.length) :
    clash2 (m.drop d) fpre = true := by
  unfold sufClash at h
  exact (List.all_eq_true.mp h) d (List.mem_range'_1.mpr ⟨h1, by omega⟩)

theorem sufClash0_spec {b fpre : List Char} (h : sufClash0 b fpre = true)
    {e : Nat} (h2 : e < b.length) : clash2 (b.drop e) fpre = true := by
  unfold sufClash0 at h
  exact (List.all_eq_true.mp h) e (List.mem_range.mpr h2)

theorem consumed_ne_nil {r : Rule} (ha : r.a ≠ []) {m : List Char}
    (h : Consumed r m) : m ≠ [] := by
  rcases h with h | ⟨w, _, h⟩ <;> subst h
  · exact ha
  · intro hc
    rw [List.append_eq_nil, List.append_eq_nil] at hc
    exact ha hc.1.1

theorem mesh_free_rule {r : Rule} {q z : List Char}
    (hh : headNonSpace q = true)
    (hA : sufClash r.a q = true)
    (hB : sufClash0 r.b q = true) :
    ∀ m, Consumed r m → ∀ d, 0 < d → d < m.length →
      ¬ Meshes (m.drop d) (q ++ z) := by
  intro m hcm d hd1 hd2
  obtain ⟨f, fs, hfp, hf⟩ : ∃ f fs, q = f :: fs ∧ isSpaceB f = false := by
    cases q with
    | nil => cases hh
    | cons f fs =>
      exact ⟨f, fs, rfl, by simpa [headNonSpace, Bool.not_eq_true'] using hh⟩
  rcases hcm with hma | ⟨w, hw, hmw⟩
  · subst hma
    exact not_meshes_of_clash2 (sufClash_spec hA hd1 hd2) z
  · subst hmw
    by_cases hda : d < r.a.length
    · have hdrop : ((r.a ++ w) ++ r.b).drop d = r.a.drop d ++ (w ++ r.b) := by
        rw [List.append_assoc, drop_append_le (w ++ r.b) (le_of_lt hda)]
      rw [hdrop]
      exact not_meshes_of_clash2
        (clash2_append_left (sufClash_spec hA hd1 hda) (w ++ r.b)) z
    · by_cases hdw : d < r.a.length + w.length
      · have hle : r.a.length ≤ d := by omega
        have hdrop : ((r.a ++ w) ++ r.b).drop d =
            w.drop (d - r.a.length) ++ r.b := by
          rw [List.append_assoc, drop_append_ge (w ++ r.b) hle,
            drop_append_le r.b (by omega)]
        cases hwd : w.drop (d - r.a.length) with
        | nil =>
          exfalso
          have hl := congrArg List.length hwd
          simp only [List.length_drop, List.length_nil] at hl
          omega
        | cons cw cws =>
          have hcw : isSpaceB cw = true := by
            have hmem : cw ∈ w := List.mem_of_mem_drop (by rw [hwd]; simp)
            unfold allSpace at hw
            exact (List.all_eq_true.mp hw) cw hmem
          rw [hdrop, hwd, List.cons_append, hfp, List.cons_append]
          exact not_meshes_space_head hcw hf
      · have hlen2 : ((r.a ++ w) ++ r.b).length =
            r.a.length + w.length + r.b.length := by
          simp only [List.length_append]
        have hge : (r.a ++ w).length ≤ d := by
          simp only [List.length_append]
          omega
        have hdrop : ((r.a ++ w) ++ r.b).drop d =
            r.b.drop (d - (r.a ++ w).length) := drop_append_ge r.b hge
        have he : d - (r.a ++ w).length < r.b.length := by
          simp only [List.length_append]
          rw [hlen2] at hd2
          omega
        rw [hdrop]
        exact not_meshes_of_clash2 (sufClash0_spec hB he) z

theorem dead_tri {r : Rule} (hra : headNonSpace r.a = true)
    {A w B : List Char} (hA : deadAll r A = true) (hw : allSpace w = true)
    (hB : deadAll r B = true) :
    ∀ i < (A ++ (w ++ B)).length, ∀ t,
      tryRul r ((A ++ (w ++ B)).drop i ++ t) = none := by
  intro i hi t
  by_cases hiA : i < A.length
  · rw [drop_append_le (w ++ B) (le_of_lt hiA), List.append_assoc]
    exact deadAll_spec hA i hiA _
  · rw [drop_append_ge (w ++ B) (by omega)]
    refine dead_space_block hra hw hB (i - A.length) ?_ t
    simp only [List.length_append] at hi ⊢
    omega

theorem frag_stable {r : Rule} (ha : r.a ≠ []) {F : List Char}
    (hdead : ∀ i < F.length, ∀ t, tryRul r (F.drop i ++ t) = none)
    (hmesh : ∀ m, Consumed r m → ∀ d, 0 < d → d < m.length →
      ¬ Meshes (m.drop d) F) :
    ∀ (n : Nat) (u : List Char), u.length ≤ n → ∀ v, ∃ u' v',
      subst (tryRul r) (u ++ (F ++ v)) = u' ++ (F ++ v') := by
  intro n
  induction n with
  | zero =>
    intro u hlen v
    have hnil : u = [] := by
      cases u with
      | nil => rfl
      | cons c cs => simp at hlen
    subst hnil
    refine ⟨[], subst (tryRul r) v, ?_⟩
    simp only [List.nil_append]
    exact subst_skip hdead
  | succ n ih =>
    intro u hlen v
    cases u with
    | nil =>
      refine ⟨[], subst (tryRul r) v, ?_⟩
      simp only [List.nil_append]
      exact subst_skip hdead
    | cons c cs =>
      cases hm : tryRul r ((c :: cs) ++ (F ++ v)) with
      | none =>
        obtain ⟨u', v', he⟩ := ih cs (by
          simp only [List.length_cons] at hlen
          omega) v
        refine ⟨c :: u', v', ?_⟩
        have hm2 : tryRul r (c :: (cs ++ (F ++ v))) = none := hm
        rw [show (c :: cs) ++ (F ++ v) = c :: (cs ++ (F ++ v)) from rfl,
          subst_cons_none hm2, he]
        rfl
      | some val =>
        obtain ⟨rep, t⟩ := val
        obtain ⟨hrep, m, hcm, hsplit⟩ := tryRul_consumed hm
        by_cases hml : m.length ≤ (c :: cs).length
        · have ht : (c :: cs).drop m.length ++ (F ++ v) = t := by
            have h1 := congrArg (List.drop m.length) hsplit
            rw [List.drop_left] at h1
            rw [drop_append_le (F ++ v) hml] at h1
            exact h1
          have hmne : m ≠ [] := consumed_ne_nil ha hcm
          have hm1 : 1 ≤ m.length := by
            cases hmm : m with
            | nil => exact absurd hmm hmne
            | cons x xs => simp
          obtain ⟨u', v', he⟩ := ih ((c :: cs).drop m.length)
            (by
              simp only [List.length_drop, List.length_cons] at *
              omega) v
          rw [ht] at he
          refine ⟨rep ++ u', v', ?_⟩
          have hm2 : tryRul r (c :: (cs ++ (F ++ v))) = some (rep, t) := hm
          rw [show (c :: cs) ++ (F ++ v) = c :: (cs ++ (F ++ v)) from rfl,
            subst_cons_some (tryRul_shrink ha) hm2, he, List.append_assoc]
        · exfalso
          have h1 := congrArg (List.drop (c :: cs).length) hsplit
          rw [List.drop_left] at h1
          rw [drop_append_le t (by omega)] at h1
          exact hmesh m hcm (c :: cs).length (by simp) (by omega)
            (meshes_of_append_eq h1.symm)

theorem frag_rewrite {r : Rule} (ha : r.a ≠ []) {F R G : List Char}
    (hFne : F ≠ [])
    (hmatch : ∀ v, tryRul r (F ++ v) = some (R, G ++ v))
    (hdead2 : ∀ i < G.length, ∀ t, tryRul r (G.drop i ++ t) = none)
    (hmesh : ∀ m, Consumed r m → ∀ d, 0 < d → d < m.length →
      ¬ Meshes (m.drop d) F) :
    ∀ (n : Nat) (u : List Char), u.length ≤ n → ∀ v, ∃ u' v',
      subst (tryRul r) (u ++ (F ++ v)) = u' ++ ((R ++ G) ++ v') := by
  intro n
  induction n with
  | zero =>
    intro u hlen v
    have hnil : u = [] := by
      cases u with
      | nil => rfl
      | cons c cs => simp at hlen
    subst hnil
    refine ⟨[], subst (tryRul r) v, ?_⟩
    simp only [List.nil_append]
    cases hF : F with
    | nil => exact absurd hF hFne
    | cons f fs =>
      have hm2 : tryRul r (f :: (fs ++ v)) = some (R, G ++ v) := by
        have h3 := hmatch v
        rw [hF] at h3
        exact h3
      rw [show (f :: fs) ++ v = f :: (fs ++ v) from rfl,
        subst_cons_some (tryRul_shrink ha) hm2,
        subst_skip hdead2, List.append_assoc]
  | succ n ih =>
    intro u hlen v
    cases u with
    | nil =>
      refine ⟨[], subst (tryRul r) v, ?_⟩
      simp only [List.nil_append]
      cases hF : F with
      | nil => exact absurd hF hFne
      | cons f fs =>
        have hm2 : tryRul r (f :: (fs ++ v)) = some (R, G ++ v) := by
          have h3 := hmatch v
          rw [hF] at h3
          exact h3
        rw [show (f :: fs) ++ v = f :: (fs ++ v) from rfl,
          subst_cons_some (tryRul_shrink ha) hm2,
          subst_skip hdead2, List.append_assoc]
    | cons c cs =>
      cases hm : tryRul r ((c :: cs) ++ (F ++ v)) with
      | none =>
        obtain ⟨u', v', he⟩ := ih cs (by
          simp only [List.length_cons] at hlen
          omega) v
        refine ⟨c :: u', v', ?_⟩
        have hm2 : tryRul r (c :: (cs ++ (F ++ v))) = none := hm
        rw [show (c :: cs) ++ (F ++ v) = c :: (cs ++ (F ++ v)) from rfl,
          subst_cons_none hm2, he]
        rfl
      | some val =>
        obtain ⟨rep, t⟩ := val
        obtain ⟨hrep, m, hcm, hsplit⟩ := tryRul_consumed hm
        by_cases hml : m.length ≤ (c :: cs).length
        · have ht : (c :: cs).drop m.length ++ (F ++ v) = t := by
            have h1 := congrArg (List.drop m.length) hsplit
            rw [List.drop_left] at h1
            rw [drop_append_le (F ++ v) hml] at h1
            exact h1
          have hmne : m ≠ [] := consumed_ne_nil ha hcm
          have hm1 : 1 ≤ m.length := by
            cases hmm : m with
            | nil => exact absurd hmm hmne
            | cons x xs => simp
          obtain ⟨u', v', he⟩ := ih ((c :: cs).drop m.length)
            (by
              simp only [List.length_drop, List.length_cons] at *
              omega) v
          rw [ht] at he
          refine ⟨rep ++ u', v', ?_⟩
          have hm2 : tryRul r (c :: (cs ++ (F ++ v))) = some (rep, t) := hm
          rw [show (c :: cs) ++ (F ++ v) = c :: (cs ++ (F ++ v)) from rfl,
            subst_cons_some (tryRul_shrink ha) hm2, he]
          simp [List.append_assoc]
        · exfalso
          have h1 := congrArg (List.drop (c :: cs).length) hsplit
          rw [List.drop_left] at h1
          rw [drop_append_le t (by omega)] at h1
          exact hmesh m hcm (c :: cs).length (by simp) (by omega)
            (meshes_of_append_eq h1.symm)

/-- Packaged `frag_stable` with all side conditions decidable (concrete
fragment `F`). -/
theorem frag_stable_dec {r : Rule} {F : List Char}
    (h1 : decide (r.a ≠ []) = true) (h2 : deadAll r F = true)
    (h3 : headNonSpace F = true) (h4 : sufClash r.a F = true)
    (h5 : sufClash0 r.b F = true) (u v : List Char) :
    ∃ u' v', subst (tryRul r) (u ++ (F ++ v)) = u' ++ (F ++ v') := by
  refine frag_stable (of_decide_eq_true h1) (deadAll_spec h2)
    (fun m hcm d hd1 hd2 => ?_) u.length u (le_refl _) v
  have hmm := mesh_free_rule (z := []) h3 h4 h5 m hcm d hd1 hd2
  simpa using hmm

/-- Packaged `frag_stable` for a fragment `A ++ (w ++ B)` whose middle
is an arbitrary whitespace run. -/
theorem frag_stable_tri {r : Rule} {A w B : List Char}
    (hw : allSpace w = true)
    (h1 : decide (r.a ≠ []) = true) (hra : headNonSpace r.a = true)
    (hA : deadAll r A = true) (hB : deadAll r B = true)
    (h3 : headNonSpace A = true) (h4 : sufClash r.a A = true)
    (h5 : sufClash0 r.b A = true) (u v : List Char) :
    ∃ u' v', subst (tryRul r) (u ++ ((A ++ (w ++ B)) ++ v)) =
      u' ++ ((A ++ (w ++ B)) ++ v') :=
  frag_stable (of_decide_eq_true h1) (dead_tri hra hA hw hB)
    (fun m hcm d hd1 hd2 =>
      mesh_free_rule (z := w ++ B) h3 h4 h5 m hcm d hd1 hd2)
    u.length u (le_refl _) v

/-! # The claims -/

/-- **C1.** For every input string `c`, applying the full ordered
substitution sequence to its own output produces no further change:
`normalize (normalize c).1` returns the same string with
`changed = false`. -/
theorem c1_normalize_idempotent (c : List Char) :
    (normalize (normalize c).1).1 = (normalize c).1 ∧
      (normalize (normalize c).1).2 = false := by
  simp only [normalize]
  constructor
  · exact applyRules_fixed c
  · simp [applyRules_fixed c]

/-- **C2 counterexample.** `<td style="padding-top: 24px;">` contains
none of the six patterns the spec enumerates (rules 1–6), yet
`normalize` reports `changed = true` (rule 8 rewrites it). -/
theorem c2_counterexample :
    hasM try1 tdPad24 = false ∧ hasM try2 tdPad24 = false ∧
      hasM try3 tdPad24 = false ∧ hasM try4 tdPad24 = false ∧
      hasM try5 tdPad24 = false ∧ hasM try6 tdPad24 = false ∧
      (normalize tdPad24).2 = true := by decide

/-- **C2 (amended).** For every input string containing none of the
*seven* active substitution patterns (the six the spec enumerates plus
the `padding-top: 24px` pattern of rule 8), `normalize` returns
`changed = false` and byte-identical content. -/
theorem c2_amended_no_pattern_no_change (s : List Char)
    (h1 : hasM try1 s = false) (h2 : hasM try2 s = false)
    (h3 : hasM try3 s = false) (h4 : hasM try4 s = false)
    (h5 : hasM try5 s = false) (h6 : hasM try6 s = false)
    (h8 : hasM try8 s = false) :
    normalize s = (s, false) := by
  have e1 : subst try1 s = s := subst_id ((hasM_false_iff _ _).mp h1)
  have e2 : subst try2 s = s := subst_id ((hasM_false_iff _ _).mp h2)
  have e3 : subst try3 s = s := subst_id ((hasM_false_iff _ _).mp h3)
  have e4 : subst try4 s = s := subst_id ((hasM_false_iff _ _).mp h4)
  have e5 : subst try5 s = s := subst_id ((hasM_false_iff _ _).mp h5)
  have e6 : subst try6 s = s := subst_id ((hasM_false_iff _ _).mp h6)
  have e8 : subst try8 s = s := subst_id ((hasM_false_iff _ _).mp h8)
  have eAll : applyRules s = s := by
    unfold applyRules
    rw [e1, e2, e3, e4, e5, e6, e8]
  simp [normalize, eAll]

/-- Witness for C2 (amended) at a concrete pattern-free input. -/
theorem c2_amended_witness :
    normalize "hello world".data = ("hello world".data, false) := by
  apply c2_amended_no_pattern_no_change <;> decide

/-- **C3 counterexample.** On an input where the whitespace between the
two declarations of rule 3's fragment is a single newline, the rule
replaces that newline by two spaces: the output is not the input with
only the numeric value changed. -/
theorem c3_counterexample :
    subst try3 (lsp ++ '\n' :: bb13) = lsp ++ twoSp ++ bb20 ∧
      subst try3 (lsp ++ '\n' :: bb13) ≠ lsp ++ '\n' :: bb20 := by decide

/-- **C3 (amended).** Every rule except rule 3 changes only the numeric
spacing token inside the matched fragment, re-emitting every other
character (including the whitespace captured by rules 1 and 4)
unchanged; rule 3 also replaces the whitespace run between its two
declarations by exactly two spaces.  Each replacement literal is the
matched literal with only the two-character numeric token changed. -/
theorem c3_amended_frame (s rep t : List Char) :
    (try1 s = some (rep, t) → ∃ w, allSpace w = true ∧
        s = (tdPad13 ++ w ++ cmTop) ++ t ∧ rep = tdPad20 ++ w ++ cmTop) ∧
      (try2 s = some (rep, t) → s = divBorder13 ++ t ∧ rep = divBorder20) ∧
      (try3 s = some (rep, t) → ∃ w, allSpace w = true ∧ w ≠ [] ∧
        s = (lsp ++ w ++ bb13) ++ t ∧ rep = lsp ++ twoSp ++ bb20) ∧
      (try4 s = some (rep, t) → ∃ w, allSpace w = true ∧
        s = (tdPad13 ++ w ++ divFont) ++ t ∧ rep = tdPad20 ++ w ++ divFont) ∧
      (try5 s = some (rep, t) → s = taMb13 ++ t ∧ rep = taMb20) ∧
      (try6 s = some (rep, t) → s = taPb10 ++ t ∧ rep = taPb20) ∧
      (try8 s = some (rep, t) → s = tdPad24 ++ t ∧ rep = tdPad20) ∧
      tdPad20 = tdPad13.take 24 ++ '2' :: '0' :: tdPad13.drop 26 ∧
      divBorder20 = divBorder13.take 58 ++ '2' :: '0' :: divBorder13.drop 60 ∧
      bb20 = bb13.take 50 ++ '2' :: '0' :: bb13.drop 52 ∧
      taMb20 = taMb13.take 34 ++ '2' :: '0' :: taMb13.drop 36 ∧
      taPb20 = taPb10.take 35 ++ '2' :: '0' :: taPb10.drop 37 ∧
      tdPad20 = tdPad24.take 24 ++ '2' :: '0' :: tdPad24.drop 26 := by
  refine ⟨?_, ?_, ?_, ?_, ?_, ?_, ?_, by decide, by decide, by decide,
    by decide, by decide, by decide⟩
  · intro h
    cases hm : matchLit tdPad13 s with
    | none => rw [try1_fail hm] at h; cases h
    | some s1 =>
      rw [try1_done hm] at h
      cases hb : matchLit cmTop (s1.dropWhile isSpaceB) with
      | none => rw [hb] at h; cases h
      | some s2 =>
        rw [hb] at h
        replace h : some (tdPad20 ++ s1.takeWhile isSpaceB ++ cmTop, s2) =
          some (rep, t) := h
        replace h := Option.some.inj h
        rw [Prod.mk.injEq] at h
        refine ⟨s1.takeWhile isSpaceB, allSpace_takeWhile s1, ?_, h.1.symm⟩
        rw [matchLit_eq_some hm, ← h.2]
        conv_lhs =>
          rw [← List.takeWhile_append_dropWhile (p := isSpaceB) (l := s1)]
        rw [matchLit_eq_some hb]
        simp [List.append_assoc]
  · intro h
    cases hm : matchLit divBorder13 s with
    | none => unfold try2 at h; rw [hm] at h; cases h
    | some s1 =>
      unfold try2 at h
      rw [hm] at h
      replace h : some (divBorder20, s1) = some (rep, t) := h
      replace h := Option.some.inj h
      rw [Prod.mk.injEq] at h
      exact ⟨by rw [matchLit_eq_some hm, ← h.2], h.1.symm⟩
  · intro h
    cases hm : matchLit lsp s with
    | none => unfold try3 at h; rw [hm] at h; cases h
    | some s1 =>
      unfold try3 at h
      rw [hm] at h
      replace h : (if (s1.takeWhile isSpaceB).isEmpty then none
        else match matchLit bb13 (s1.dropWhile isSpaceB) with
          | none => none
          | some s2 => some (lsp ++ twoSp ++ bb20, s2)) = some (rep, t) := h
      by_cases he : (s1.takeWhile isSpaceB).isEmpty = true
      · rw [if_pos he] at h; cases h
      · rw [if_neg he] at h
        cases hb : matchLit bb13 (s1.dropWhile isSpaceB) with
        | none => rw [hb] at h; cases h
        | some s2 =>
          rw [hb] at h
          replace h : some (lsp ++ twoSp ++ bb20, s2) = some (rep, t) := h
          replace h := Option.some.inj h
          rw [Prod.mk.injEq] at h
          refine ⟨s1.takeWhile isSpaceB, allSpace_takeWhile s1,
            by simpa [List.isEmpty_iff] using he, ?_, h.1.symm⟩
          rw [matchLit_eq_some hm, ← h.2]
          conv_lhs =>
            rw [← List.takeWhile_append_dropWhile (p := isSpaceB) (l := s1)]
          rw [matchLit_eq_some hb]
          simp [List.append_assoc]
  · intro h
    cases hm : matchLit tdPad13 s with
    | none => rw [try4_fail hm] at h; cases h
    | some s1 =>
      rw [try4_done hm] at h
      cases hb : matchLit divFont (s1.dropWhile isSpaceB) with
      | none => rw [hb] at h; cases h
      | some s2 =>
        rw [hb] at h
        replace h : some (tdPad20 ++ s1.takeWhile isSpaceB ++ divFont, s2) =
          some (rep, t) := h
        replace h := Option.some.inj h
        rw [Prod.mk.injEq] at h
        refine ⟨s1.takeWhile isSpaceB, allSpace_takeWhile s1, ?_, h.1.symm⟩
        rw [matchLit_eq_some hm, ← h.2]
        conv_lhs =>
          rw [← List.takeWhile_append_dropWhile (p := isSpaceB) (l := s1)]
        rw [matchLit_eq_some hb]
        simp [List.append_assoc]
  · intro h
    cases hm : matchLit taMb13 s with
    | none => unfold try5 at h; rw [hm] at h; cases h
    | some s1 =>
      unfold try5 at h
      rw [hm] at h
      replace h : some (taMb20, s1) = some (rep, t) := h
      replace h := Option.some.inj h
      rw [Prod.mk.injEq] at h
      exact ⟨by rw [matchLit_eq_some hm, ← h.2], h.1.symm⟩
  · intro h
    cases hm : matchLit taPb10 s with
    | none => unfold try6 at h; rw [hm] at h; cases h
    | some s1 =>
      unfold try6 at h
      rw [hm] at h
      replace h : some (taPb20, s1) = some (rep, t) := h
      replace h := Option.some.inj h
      rw [Prod.mk.injEq] at h
      exact ⟨by rw [matchLit_eq_some hm, ← h.2], h.1.symm⟩
  · intro h
    cases hm : matchLit tdPad24 s with
    | none => unfold try8 at h; rw [hm] at h; cases h
    | some s1 =>
      unfold try8 at h
      rw [hm] at h
      replace h : some (tdPad20, s1) = some (rep, t) := h
      replace h := Option.some.inj h
      rw [Prod.mk.injEq] at h
      exact ⟨by rw [matchLit_eq_some hm, ← h.2], h.1.symm⟩

/-- Witness for C3 (amended), applying the rule 2 clause at a concrete
match. -/
theorem c3_amended_witness :
    divBorder13 = divBorder13 ++ [] ∧ divBorder20 = divBorder20 :=
  (c3_amended_frame divBorder13 divBorder20 []).2.1 (by decide)

/-- **C6.** A processed file is overwritten (with the transformed
content) exactly when the transformed content differs from the
original; when nothing changed the file is not written. -/
theorem c6_write_iff_changed (c : List Char) :
    ((normalize c).2 = false → processFile c = none) ∧
      ((normalize c).2 = true → processFile c = some (normalize c).1) := by
  simp only [normalize]
  constructor
  · intro h
    have h3 : applyRules c = c := by simpa using h
    simp [processFile, h3]
  · intro h
    have h3 : applyRules c ≠ c := by simpa using h
    simp [processFile, h3]

set_option maxHeartbeats 2000000 in
/-- Witness for C6 at an unchanged and at a changed concrete input. -/
theorem c6_write_iff_changed_witness :
    processFile [] = none ∧ processFile tdPad24 = some (normalize tdPad24).1 :=
  ⟨(c6_write_iff_changed []).1 (by decide),
    (c6_write_iff_changed tdPad24).2 (by decide)⟩

/-- **C7.** `reorder` (the `fix_text`/`get_display` contract) maps the
empty string to the empty string. -/
theorem c7_reorder_empty : fix_text "" = "" := by decide

/-- **C9.** The normalizer applies a seventh active substitution beyond
the six the spec enumerates: after `normalize`, no occurrence of
`<td style="padding-top: 24px;">` remains, and an input containing one
is always reported as changed. -/
theorem c9_rule8_active (s : List Char) :
    occursLit tdPad24 ((normalize s).1) = false ∧
      (occursLit tdPad24 s = true → (normalize s).2 = true) := by
  simp only [normalize]
  constructor
  · rw [occursLit_24_eq]
    exact (applyRules_noMatch_all s).2.2.2.2.2.2
  · intro h
    have hout : occursLit tdPad24 (applyRules s) = false := by
      rw [occursLit_24_eq]
      exact (applyRules_noMatch_all s).2.2.2.2.2.2
    by_cases hne : applyRules s = s
    · rw [hne, h] at hout
      cases hout
    · simp [hne]

/-- Witness for C9's conditional part at a concrete input containing
the `24px` pattern. -/
theorem c9_rule8_active_witness :
    occursLit tdPad24 tdPad24 = true ∧ (normalize tdPad24).2 = true :=
  ⟨by decide, (c9_rule8_active tdPad24).2 (by decide)⟩

/-- **C10.** Every substitution rule is global over the whole content:
after one pass of a rule, no occurrence of that rule's pattern remains
anywhere in the result (so every occurrence, not only the first, was
rewritten). -/
theorem c10_rules_global (s : List Char) :
    hasM try1 (subst try1 s) = false ∧ hasM try2 (subst try2 s) = false ∧
      hasM try3 (subst try3 s) = false ∧ hasM try4 (subst try4 s) = false ∧
      hasM try5 (subst try5 s) = false ∧ hasM try6 (subst try6 s) = false ∧
      hasM try8 (subst try8 s) = false := by
  refine ⟨?_, ?_, ?_, ?_, ?_, ?_, ?_⟩
  · rw [subst_try1_eq s.length s (le_refl _)]
    exact (hasM_false_iff _ _).mpr fun i => (try1_none_iff _).mpr
      (self_compat (by decide) s i)
  · rw [subst_congr try2_eq]
    exact (hasM_false_iff _ _).mpr fun i => (try2_eq _).trans
      (self_compat (by decide) s i)
  · rw [subst_congr try3_eq]
    exact (hasM_false_iff _ _).mpr fun i => (try3_eq _).trans
      (self_compat (by decide) s i)
  · rw [subst_try4_eq s.length s (le_refl _)]
    exact (hasM_false_iff _ _).mpr fun i => (try4_none_iff _).mpr
      (self_compat (by decide) s i)
  · rw [subst_congr try5_eq]
    exact (hasM_false_iff _ _).mpr fun i => (try5_eq _).trans
      (self_compat (by decide) s i)
  · rw [subst_congr try6_eq]
    exact (hasM_false_iff _ _).mpr fun i => (try6_eq _).trans
      (self_compat (by decide) s i)
  · rw [subst_congr try8_eq]
    exact (hasM_false_iff _ _).mpr fun i => (try8_eq _).trans
      (self_compat (by decide) s i)

/-- **C4.** For every input containing
`<td style="padding-top: 13px;">` followed, possibly after whitespace,
by the comment `<!-- Top border above subject -->`, `normalize`
rewrites the padding value of that fragment to `20px` and leaves the
whitespace and the comment unchanged. -/
theorem c4_rule1_rewrites (u w v : List Char) (hw : allSpace w = true) :
    ∃ u' v', applyRules (u ++ ((tdPad13 ++ (w ++ cmTop)) ++ v)) =
      u' ++ ((tdPad20 ++ (w ++ cmTop)) ++ v') := by
  rw [applyRules_eq]
  unfold pipeR
  have hmatch : ∀ v0, tryRul rul1 ((tdPad13 ++ (w ++ cmTop)) ++ v0) =
      some (tdPad20, (w ++ cmTop) ++ v0) := by
    intro v0
    have hm : matchLit rul1.a ((tdPad13 ++ (w ++ cmTop)) ++ v0) =
        some ((w ++ cmTop) ++ v0) := by
      rw [List.append_assoc]
      exact matchLit_append_self _ _
    rw [tryRul_done hm]
    have hdw : ((w ++ cmTop) ++ v0).dropWhile isSpaceB = cmTop ++ v0 := by
      rw [List.append_assoc, dropWhile_space_append hw,
        dropWhile_headNonSpace (headNonSpace_append (by decide) v0)]
    rw [hdw]
    simp [rul1, matchLit_append_self]
  obtain ⟨u1, v1, e1⟩ := frag_rewrite (r := rul1)
    (F := tdPad13 ++ (w ++ cmTop)) (R := tdPad20) (G := w ++ cmTop)
    (by decide) (by simp [tdPad13]) hmatch
    (dead_space_block (by decide) hw (by decide))
    (fun m hcm d hd1 hd2 =>
      mesh_free_rule (z := w ++ cmTop) (by decide) (by decide) (by decide)
        m hcm d hd1 hd2)
    u.length u (le_refl _) v
  rw [e1]
  obtain ⟨u2, v2, e2⟩ := frag_stable_tri (r := rul2) (A := tdPad20) (B := cmTop) hw (by decide) (by decide)
    (by decide) (by decide) (by decide) (by decide) (by decide) u1 v1
  rw [e2]
  obtain ⟨u3, v3, e3⟩ := frag_stable_tri (r := rul3) (A := tdPad20) (B := cmTop) hw (by decide) (by decide)
    (by decide) (by decide) (by decide) (by decide) (by decide) u2 v2
  rw [e3]
  obtain ⟨u4, v4, e4⟩ := frag_stable_tri (r := rul4) (A := tdPad20) (B := cmTop) hw (by decide) (by decide)
    (by decide) (by decide) (by decide) (by decide) (by decide) u3 v3
  rw [e4]
  obtain ⟨u5, v5, e5⟩ := frag_stable_tri (r := rul5) (A := tdPad20) (B := cmTop) hw (by decide) (by decide)
    (by decide) (by decide) (by decide) (by decide) (by decide) u4 v4
  rw [e5]
  obtain ⟨u6, v6, e6⟩ := frag_stable_tri (r := rul6) (A := tdPad20) (B := cmTop) hw (by decide) (by decide)
    (by decide) (by decide) (by decide) (by decide) (by decide) u5 v5
  rw [e6]
  obtain ⟨u8, v8, e8⟩ := frag_stable_tri (r := rul8) (A := tdPad20) (B := cmTop) hw (by decide) (by decide)
    (by decide) (by decide) (by decide) (by decide) (by decide) u6 v6
  rw [e8]
  exact ⟨u8, v8, rfl⟩

/-- Witness for C4 at a concrete input (one space between the `td` tag
and the comment). -/
theorem c4_rule1_rewrites_witness :
    ∃ u' v', applyRules ([] ++ ((tdPad13 ++ ([' '] ++ cmTop)) ++ [])) =
      u' ++ ((tdPad20 ++ ([' '] ++ cmTop)) ++ v') :=
  c4_rule1_rewrites [] [' '] [] (by decide)

/-- **C5.** For every input containing the fragment
`<div style="border-top: 1px solid #000000; margin-bottom: 13px;"></div>`,
the output of `normalize` carries `margin-bottom: 20px;` in that
fragment, with the `border-top` attribute and every other character of
the fragment unchanged. -/
theorem c5_rule2_rewrites (u v : List Char) :
    ∃ u' v', applyRules (u ++ (divBorder13 ++ v)) =
      u' ++ (divBorder20 ++ v') := by
  rw [applyRules_eq]
  unfold pipeR
  obtain ⟨u1, v1, e1⟩ := frag_stable_dec (r := rul1) (F := divBorder13)
    (by decide) (by decide) (by decide) (by decide) (by decide) u v
  rw [e1]
  have hmatch : ∀ v0, tryRul rul2 (divBorder13 ++ v0) =
      some (divBorder20, [] ++ v0) := by
    intro v0
    rw [tryRul_done (show matchLit rul2.a (divBorder13 ++ v0) = some v0 from
      matchLit_append_self _ _)]
    simp [rul2]
  obtain ⟨u2, v2, e2⟩ := frag_rewrite (r := rul2)
    (F := divBorder13) (R := divBorder20) (G := [])
    (by decide) (by simp [divBorder13]) hmatch
    (fun i hi t => absurd hi (by simp))
    (fun m hcm d hd1 hd2 => by
      have hmm := mesh_free_rule (q := divBorder13) (z := [])
        (by decide) (by decide) (by decide) m hcm d hd1 hd2
      simpa using hmm)
    u1.length u1 (le_refl _) v1
  rw [List.append_nil] at e2
  rw [e2]
  obtain ⟨u3, v3, e3⟩ := frag_stable_dec (r := rul3) (F := divBorder20)
    (by decide) (by decide) (by decide) (by decide) (by decide) u2 v2
  rw [e3]
  obtain ⟨u4, v4, e4⟩ := frag_stable_dec (r := rul4) (F := divBorder20)
    (by decide) (by decide) (by decide) (by decide) (by decide) u3 v3
  rw [e4]
  obtain ⟨u5, v5, e5⟩ := frag_stable_dec (r := rul5) (F := divBorder20)
    (by decide) (by decide) (by decide) (by decide) (by decide) u4 v4
  rw [e5]
  obtain ⟨u6, v6, e6⟩ := frag_stable_dec (r := rul6) (F := divBorder20)
    (by decide) (by decide) (by decide) (by decide) (by decide) u5 v5
  rw [e6]
  obtain ⟨u8, v8, e8⟩ := frag_stable_dec (r := rul8) (F := divBorder20)
    (by decide) (by decide) (by decide) (by decide) (by decide) u6 v6
  rw [e8]
  exact ⟨u8, v8, rfl⟩

/-! ## The bidi adapter on pure left-to-right text -/

theorem bidiClass_not_rtl {c : Char} (h : isStrongRTL c = false) :
    bidiClass c ≠ BClass.R ∧ bidiClass c ≠ BClass.AL := by
  unfold isStrongRTL at h
  constructor <;> intro hc
  · rw [hc] at h
    replace h : true = false := h
    cases h
  · rw [hc] at h
    replace h : true = false := h
    cases h

theorem paraRTL_false {cls : List BClass}
    (h : ∀ x ∈ cls, x ≠ BClass.R ∧ x ≠ BClass.AL) : paraRTL cls = false := by
  induction cls with
  | nil => rfl
  | cons x xs ih =>
    cases x with
    | L => rfl
    | R => exact absurd rfl (h BClass.R (List.mem_cons_self _ _)).1
    | AL => exact absurd rfl (h BClass.AL (List.mem_cons_self _ _)).2
    | EN => exact ih fun y hy => h y (List.mem_cons_of_mem _ hy)
    | WS => exact ih fun y hy => h y (List.mem_cons_of_mem _ hy)
    | ON => exact ih fun y hy => h y (List.mem_cons_of_mem _ hy)

theorem resolveW_length (last : BClass) (cls : List BClass) :
    (resolveW last cls).length = cls.length := by
  induction cls generalizing last with
  | nil => rfl
  | cons x xs ih =>
    cases x <;> simp only [resolveW, List.length_cons, ih]

theorem resolveW_L_mem {cls : List BClass}
    (h : ∀ x ∈ cls, x ≠ BClass.R ∧ x ≠ BClass.AL) :
    ∀ y ∈ resolveW BClass.L cls,
      y = BClass.L ∨ y = BClass.WS ∨ y = BClass.ON := by
  induction cls with
  | nil => intro y hy; cases hy
  | cons x xs ih =>
    have hx := h x (List.mem_cons_self _ _)
    have htl : ∀ z ∈ xs, z ≠ BClass.R ∧ z ≠ BClass.AL :=
      fun z hz => h z (List.mem_cons_of_mem _ hz)
    intro y hy
    cases x with
    | L =>
      rcases List.mem_cons.mp hy with h1 | h1
      · exact Or.inl h1
      · exact ih htl y h1
    | R => exact absurd rfl hx.1
    | AL => exact absurd rfl hx.2
    | EN =>
      rcases List.mem_cons.mp hy with h1 | h1
      · rw [if_pos rfl] at h1
        exact Or.inl h1
      · exact ih htl y h1
    | WS =>
      rcases List.mem_cons.mp hy with h1 | h1
      · exact Or.inr (Or.inl h1)
      · exact ih htl y h1
    | ON =>
      rcases List.mem_cons.mp hy with h1 | h1
      · exact Or.inr (Or.inr h1)
      · exact ih htl y h1

theorem dropWhile_head_false {α : Type} {p : α → Bool} {xs : List α} {d : α}
    {ds : List α} (h : xs.dropWhile p = d :: ds) : p d = false := by
  induction xs with
  | nil => cases h
  | cons x xsi ih =>
    by_cases hx : p x = true
    · rw [List.dropWhile_cons, if_pos hx] at h
      exact ih h
    · rw [List.dropWhile_cons, if_neg hx] at h
      injection h with h1 _
      rw [← h1]
      simpa using hx

theorem mem_of_mem_dropWhile {α : Type} {p : α → Bool} {xs : List α} {d : α}
    (h : d ∈ xs.dropWhile p) : d ∈ xs := by
  induction xs with
  | nil => cases h
  | cons x xsi ih =>
    by_cases hx : p x = true
    · rw [List.dropWhile_cons, if_pos hx] at h
      exact List.mem_cons_of_mem _ (ih h)
    · rw [List.dropWhile_cons, if_neg hx] at h
      exact h

theorem length_dropWhile_le_gen {α : Type} (p : α → Bool) (xs : List α) :
    (xs.dropWhile p).length ≤ xs.length := by
  induction xs with
  | nil => simp
  | cons x xsi ih =>
    by_cases hx : p x = true
    · rw [List.dropWhile_cons, if_pos hx]
      simp only [List.length_cons]
      omega
    · rw [List.dropWhile_cons, if_neg hx]

theorem takeWhile_of_dropWhile_nil {α : Type} {p : α → Bool} {xs : List α}
    (h : xs.dropWhile p = []) : xs.takeWhile p = xs := by
  induction xs with
  | nil => rfl
  | cons x xsi ih =>
    by_cases hx : p x = true
    · rw [List.dropWhile_cons, if_pos hx] at h
      rw [List.takeWhile_cons, if_pos hx, ih h]
    · rw [List.dropWhile_cons, if_neg hx] at h
      cases h

theorem resolveNF_L :
    ∀ (fuel : Nat) (cs : List BClass), cs.length ≤ fuel →
      (∀ x ∈ cs, x = BClass.L ∨ x = BClass.WS ∨ x = BClass.ON) →
      resolveNF BClass.L fuel BClass.L cs = cs.map fun _ => BClass.L := by
  intro fuel
  induction fuel with
  | zero =>
    intro cs hlen _
    have hnil : cs = [] := by
      cases cs with
      | nil => rfl
      | cons c cs0 => simp at hlen
    subst hnil
    rfl
  | succ n ih =>
    intro cs hlen h
    cases cs with
    | nil => rfl
    | cons c cs0 =>
      have hc0 := h c (List.mem_cons_self _ _)
      by_cases hc : isNeutral c = true
      · simp only [resolveNF, hc, if_true]
        cases hrest : (c :: cs0).dropWhile isNeutral with
        | nil =>
          have hnil : resolveNF BClass.L n BClass.L [] = [] := by
            cases n <;> rfl
          rw [hnil, List.append_nil, takeWhile_of_dropWhile_nil hrest]
          simp only [ite_self]
        | cons d ds =>
          have hd0 : isNeutral d = false := dropWhile_head_false hrest
          have hdmem : d ∈ c :: cs0 :=
            mem_of_mem_dropWhile (by rw [hrest]; exact List.mem_cons_self _ _)
          have hdL : d = BClass.L := by
            rcases h d hdmem with h1 | h1 | h1
            · exact h1
            · rw [h1] at hd0; cases hd0
            · rw [h1] at hd0; cases hd0
          subst hdL
          have hlen2 : (BClass.L :: ds).length ≤ n := by
            have hx1 : (c :: cs0).dropWhile isNeutral =
                (cs0).dropWhile isNeutral := by
              rw [List.dropWhile_cons, if_pos hc]
            have hx2 := length_dropWhile_le_gen isNeutral cs0
            rw [hx1] at hrest
            rw [hrest] at hx2
            simp only [List.length_cons] at hlen hx2 ⊢
            omega
          have hmem2 : ∀ x ∈ BClass.L :: ds,
              x = BClass.L ∨ x = BClass.WS ∨ x = BClass.ON := by
            intro x hx
            rcases List.mem_cons.mp hx with h1 | h1
            · exact Or.inl h1
            · refine h x (mem_of_mem_dropWhile (p := isNeutral) ?_)
              rw [hrest]
              exact List.mem_cons_of_mem _ h1
          simp only [ite_self]
          rw [ih (BClass.L :: ds) hlen2 hmem2, ← List.map_append, ← hrest,
            List.takeWhile_append_dropWhile]
      · have hcL : c = BClass.L := by
          rcases hc0 with h1 | h1 | h1
          · exact h1
          · rw [h1] at hc; exact absurd rfl hc
          · rw [h1] at hc; exact absurd rfl hc
        simp only [resolveNF, hc, if_false]
        have htl : ∀ x ∈ cs0, x = BClass.L ∨ x = BClass.WS ∨ x = BClass.ON :=
          fun x hx => h x (List.mem_cons_of_mem _ hx)
        rw [hcL]
        have hdir : dirOf BClass.L BClass.L = BClass.L := rfl
        rw [hdir, ih cs0 (by simpa using Nat.le_of_succ_le_succ hlen) htl]
        rfl

theorem resolveN_L {cs : List BClass}
    (h : ∀ x ∈ cs, x = BClass.L ∨ x = BClass.WS ∨ x = BClass.ON) :
    resolveN BClass.L BClass.L cs = cs.map fun _ => BClass.L :=
  resolveNF_L cs.length cs (le_refl _) h

theorem map_const_level (xs : List BClass) :
    ((xs.map fun _ => BClass.L).map (classLevel 0)) =
      List.replicate xs.length 0 := by
  induction xs with
  | nil => rfl
  | cons x xsi ih =>
    simp only [List.map_cons, List.length_cons, List.replicate_succ, ih]
    rfl

theorem zip_map_snd : ∀ (a : List BClass) (b : List Nat),
    a.length = b.length → (a.zip b).map Prod.snd = b := by
  intro a
  induction a with
  | nil =>
    intro b hb
    have : b = [] := by
      cases b with
      | nil => rfl
      | cons x xs => simp at hb
    subst this
    rfl
  | cons x xs ih =>
    intro b hb
    cases b with
    | nil => simp at hb
    | cons y ys =>
      simp only [List.zip_cons_cons, List.map_cons]
      rw [ih ys (by simpa using hb)]

theorem resetTrailing_zero {xs : List (BClass × Nat)}
    (h : ∀ x ∈ xs, x.2 = 0) : resetTrailing 0 xs = xs := by
  induction xs with
  | nil => rfl
  | cons x xsi ih =>
    obtain ⟨c, l⟩ := x
    have hl : l = 0 := h (c, l) (List.mem_cons_self _ _)
    subst hl
    simp only [resetTrailing]
    by_cases hc : c = BClass.WS
    · rw [if_pos hc, ih fun y hy => h y (List.mem_cons_of_mem _ hy)]
    · rw [if_neg hc]

theorem applyL1_zero {cls : List BClass} {lvls : List Nat}
    (hlen : cls.length = lvls.length) (h0 : ∀ x ∈ lvls, x = 0) :
    applyL1 0 cls lvls = lvls := by
  unfold applyL1
  have hz : ∀ x ∈ (cls.zip lvls).reverse, (x : BClass × Nat).2 = 0 := by
    intro x hx
    rw [List.mem_reverse] at hx
    exact h0 x.2 (List.of_mem_zip hx).2
  rw [resetTrailing_zero hz, List.reverse_reverse]
  exact zip_map_snd cls lvls hlen

theorem maxLevel_replicate (n : Nat) : maxLevel (List.replicate n 0) = 0 := by
  induction n with
  | zero => rfl
  | succ k ih =>
    simp only [List.replicate_succ, maxLevel, List.foldr_cons]
    unfold maxLevel at ih
    rw [ih]
    rfl

theorem zip_replicate_mirror : ∀ (l : List Char),
    ((l.zip (List.replicate l.length 0)).map
      fun x => if x.2 % 2 = 1 then mirrorChar x.1 else x.1) = l := by
  intro l
  induction l with
  | nil => rfl
  | cons c cs ih =>
    simp only [List.length_cons, List.replicate_succ, List.zip_cons_cons,
      List.map_cons]
    rw [ih]
    rfl

theorem lineLevels_ltr {l : List Char}
    (h : ∀ c ∈ l, isStrongRTL c = false) :
    lineLevels l = List.replicate l.length 0 := by
  have hcls : ∀ x ∈ l.map bidiClass, x ≠ BClass.R ∧ x ≠ BClass.AL := by
    intro x hx
    obtain ⟨c, hc, hcx⟩ := List.mem_map.mp hx
    rw [← hcx]
    exact bidiClass_not_rtl (h c hc)
  have hp : paraRTL (l.map bidiClass) = false := paraRTL_false hcls
  simp only [lineLevels]
  rw [hp]
  show applyL1 0 (l.map bidiClass)
      ((resolveN BClass.L BClass.L (resolveW BClass.L (l.map bidiClass))).map
        (classLevel 0)) = List.replicate l.length 0
  rw [resolveN_L (resolveW_L_mem hcls), map_const_level, resolveW_length,
    List.length_map]
  refine applyL1_zero ?_ ?_
  · simp
  · intro x hx
    exact List.eq_of_mem_replicate hx

theorem reorderLine_id {l : List Char}
    (h : ∀ c ∈ l, isStrongRTL c = false) : reorderLine l = l := by
  simp only [reorderLine]
  rw [lineLevels_ltr h, maxLevel_replicate]
  show ((l.zip (List.replicate l.length 0)).map
    fun x => if x.2 % 2 = 1 then mirrorChar x.1 else x.1) = l
  exact zip_replicate_mirror l

theorem splitNL_ne_nil (s : List Char) : splitNL s ≠ [] := by
  cases s with
  | nil => simp [splitNL]
  | cons c cs =>
    simp only [splitNL]
    by_cases hc : c = '\n'
    · rw [if_pos hc]
      simp
    · rw [if_neg hc]
      cases hsp : splitNL cs with
      | nil => simp
      | cons l ls => simp

theorem joinNL_splitNL (s : List Char) : joinNL (splitNL s) = s := by
  induction s with
  | nil => rfl
  | cons c cs ih =>
    simp only [splitNL]
    by_cases hc : c = '\n'
    · rw [if_pos hc]
      cases hsp : splitNL cs with
      | nil => exact absurd hsp (splitNL_ne_nil cs)
      | cons l ls =>
        have h3 : joinNL ([] :: l :: ls) = '\n' :: joinNL (l :: ls) := rfl
        rw [h3, ← hsp, ih, hc]
    · rw [if_neg hc]
      cases hsp : splitNL cs with
      | nil => exact absurd hsp (splitNL_ne_nil cs)
      | cons l ls =>
        have h2 : joinNL (splitNL cs) = cs := ih
        rw [hsp] at h2
        cases ls with
        | nil =>
          have h4 : joinNL [l] = l := rfl
          rw [h4] at h2
          show c :: l = c :: cs
          rw [h2]
        | cons l2 ls2 =>
          have h4 : l ++ '\n' :: joinNL (l2 :: ls2) = cs := h2
          show (c :: l) ++ '\n' :: joinNL (l2 :: ls2) = c :: cs
          rw [List.cons_append, h4]

theorem splitNL_mem {s l : List Char} (hl : l ∈ splitNL s) :
    ∀ c ∈ l, c ∈ s := by
  induction s generalizing l with
  | nil =>
    simp only [splitNL, List.mem_singleton] at hl
    subst hl
    intro c hc
    cases hc
  | cons a as ih =>
    intro c hc
    simp only [splitNL] at hl
    by_cases ha : a = '\n'
    · rw [if_pos ha] at hl
      rcases List.mem_cons.mp hl with h1 | h1
      · subst h1; cases hc
      · exact List.mem_cons_of_mem a (ih h1 c hc)
    · rw [if_neg ha] at hl
      cases hsp : splitNL as with
      | nil => exact absurd hsp (splitNL_ne_nil as)
      | cons l0 ls0 =>
        rw [hsp] at hl
        rcases List.mem_cons.mp hl with h1 | h1
        · subst h1
          rcases List.mem_cons.mp hc with h2 | h2
          · rw [h2]
            exact List.mem_cons_self a as
          · refine List.mem_cons_of_mem a (ih ?_ c h2)
            rw [hsp]
            exact List.mem_cons_self l0 ls0
        · refine List.mem_cons_of_mem a (ih ?_ c hc)
          rw [hsp]
          exact List.mem_cons_of_mem l0 h1

theorem map_reorder_self {xs : List (List Char)}
    (h : ∀ x ∈ xs, reorderLine x = x) : xs.map reorderLine = xs := by
  induction xs with
  | nil => rfl
  | cons x xsi ih =>
    simp only [List.map_cons]
    rw [h x (List.mem_cons_self _ _),
      ih fun y hy => h y (List.mem_cons_of_mem _ hy)]

/-- **C8.** `reorder` of a pure left-to-right string (no strong
right-to-left character) returns the string unchanged. -/
theorem c8_reorder_ltr_id (t : String)
    (h : ∀ c ∈ t.data, isStrongRTL c = false) : fix_text t = t := by
  obtain ⟨d⟩ := t
  unfold fix_text get_display
  have hlines : (splitNL d).map reorderLine = splitNL d := by
    refine map_reorder_self fun l hl => reorderLine_id fun c hc => ?_
    exact h c (splitNL_mem hl c hc)
  show String.mk (joinNL ((splitNL d).map reorderLine)) = String.mk d
  rw [hlines, joinNL_splitNL]

/-- Witness for C8 at a concrete left-to-right string. -/
theorem c8_reorder_ltr_id_witness : fix_text "abc (x) 123!" = "abc (x) 123!" :=
  c8_reorder_ltr_id "abc (x) 123!" (by decide)

end TV
